import Mathlib

/-!
Verification of the Linemark outline engine.

Linemark stores a hierarchical outline entirely in the filenames of a flat
directory of Markdown files.  This development embeds the domain entities
(`MaterializedPath`, `Node`, `Outline`), the filename codec, the sibling
position arithmetic, move-with-cascade, compaction, the filesystem adapter's
rename operation, and the CLI error dispatch, and proves the specified
properties about them.

Python strings are embedded as lists of Unicode code points (`PyStr`);
Python string comparison is code-point lexicographic, which the embedding
mirrors with an explicit lexicographic order on `List Nat`.  Fallible Python
code (raising exceptions) is embedded with `Option`.
-/

namespace Linemark

/-- Python strings as lists of Unicode code points. -/
abbrev PyStr := List Nat

/-- Code point of the dash character. -/
def dashCode : Nat := 45

/-- Code point of the dot character. -/
def dotCode : Nat := 46

/-- Code point of the underscore character. -/
def underscoreCode : Nat := 95

/-- Code point of the lowercase letter m. -/
def mCode : Nat := 109

/-- Code point of the lowercase letter d. -/
def dCode : Nat := 100

/-- Whether a code point is an ASCII digit. -/
def isDigitCode (c : Nat) : Bool := 48 ≤ c && c ≤ 57

/-- Whether a code point is an ASCII uppercase letter. -/
def isUpperCode (c : Nat) : Bool := 65 ≤ c && c ≤ 90

/-- Whether a code point is an ASCII lowercase letter. -/
def isLowerCode (c : Nat) : Bool := 97 ≤ c && c ≤ 122

/-- Whether a code point is ASCII alphanumeric (Python `str.isalnum` on ASCII). -/
def isAlnumCode (c : Nat) : Bool := isDigitCode c || isUpperCode c || isLowerCode c

/-- Embedding of the segment constraint `MIN_SEGMENT_VALUE` from
`linemark/domain/entities.py`. -/
def MIN_SEGMENT_VALUE : Nat := 1

/-- Embedding of the segment constraint `MAX_SEGMENT_VALUE` from
`linemark/domain/entities.py`. -/
def MAX_SEGMENT_VALUE : Nat := 999

/-- Whether one segment value is inside the legal range `[1, 999]`. -/
def validSeg (s : Nat) : Bool := MIN_SEGMENT_VALUE ≤ s && s ≤ MAX_SEGMENT_VALUE

/-- Whether a segment list is a legal materialized path: non-empty
(`min_length=1` on the pydantic field) with every segment in range. -/
def validMp (mp : List Nat) : Bool := !mp.isEmpty && mp.all validSeg

/-- Embedding of `MaterializedPath` construction: the pydantic model applies
`min_length=1` and `validate_segments`, yielding the segment tuple on success
and a domain error (here `none`) otherwise. -/
def mkMaterializedPath (segments : List Nat) : Option (List Nat) :=
  if segments.isEmpty then none
  else if segments.all validSeg then some segments else none

/-- Zero-padded three-digit rendering of one segment, the Python
format `f'{seg:03d}'` for values below 1000. -/
def pad3 (n : Nat) : PyStr := [48 + n / 100, 48 + n / 10 % 10, 48 + n % 10]

/-- Embedding of `MaterializedPath.as_string`: dash-joined zero-padded
segments, for example `(1, 100, 50)` renders as the digits of `001-100-050`. -/
def asStr : List Nat → PyStr
  | [] => []
  | [s] => pad3 s
  | s :: rest => pad3 s ++ dashCode :: asStr rest

/-- Python `str.split(sep)` on a code-point list: splits at every occurrence
of the separator, keeping empty groups. -/
def splitAll (sep : Nat) : List Nat → List (List Nat)
  | [] => [[]]
  | c :: rest =>
    let r := splitAll sep rest
    if c = sep then [] :: r else (c :: r.headD []) :: r.tail

/-- Numeric value of a digit string, most significant digit first. -/
def groupVal (g : List Nat) : Nat := g.foldl (fun acc c => acc * 10 + (c - 48)) 0

/-- Python `int()` restricted to unsigned digit strings, the inputs relevant
here: `int` succeeds on a non-empty all-digit group (leading zeros allowed)
and raises `ValueError` otherwise.  (Python's `int` also strips whitespace and
accepts signs and digit-group underscores; those inputs decide no claim and
are conservatively rejected here, matching `int` on every dash-free group an
accepted path string can contain.) -/
def pyInt? (g : List Nat) : Option Nat :=
  if g.isEmpty then none
  else if g.all isDigitCode then some (groupVal g) else none

/-- Embedding of `MaterializedPath.from_string`: reject the empty string,
split on dashes, convert every group with `int`, then construct (validating
the segment range). -/
def fromString (pathStr : PyStr) : Option (List Nat) :=
  if pathStr.isEmpty then none
  else
    match (splitAll dashCode pathStr).mapM pyInt? with
    | none => none
    | some segs => mkMaterializedPath segs

/-- Embedding of `MaterializedPath.depth`. -/
def mpDepth (mp : List Nat) : Nat := mp.length

/-- Embedding of `MaterializedPath.parent`: `none` at depth 1, otherwise the
path without its last segment. -/
def mpParent (mp : List Nat) : Option (List Nat) :=
  if mp.length = 1 then none else some mp.dropLast

/-- Embedding of `MaterializedPath.child`. -/
def mpChild (mp : List Nat) (position : Nat) : List Nat := mp ++ [position]

/-- Embedding of the `Node` entity: stable identifier, materialized path,
title, slug and the set of document types (kept as a list). -/
structure Node where
  sqid : PyStr
  mp : List Nat
  title : PyStr
  slug : PyStr
  document_types : List PyStr
deriving Repr, DecidableEq

/-- Filename assembled from an explicit quadruple, the body of
`Node.filename`: `<mp>_<sqid>_<type>_<slug>.md`. -/
def encodeFilename (mp : List Nat) (sqid docType slug : PyStr) : PyStr :=
  asStr mp ++ underscoreCode :: sqid ++ underscoreCode :: docType ++
    underscoreCode :: slug ++ [dotCode, mCode, dCode]

/-- Embedding of `Node.filename`. -/
def Node.filename (n : Node) (docType : PyStr) : PyStr :=
  encodeFilename n.mp n.sqid docType n.slug

/-- Split a code-point list at the first occurrence of a separator,
returning the part before and the part after; `none` when the separator is
absent. -/
def splitFirst (sep : Nat) : List Nat → Option (List Nat × List Nat)
  | [] => none
  | c :: rest =>
    if c = sep then some ([], rest)
    else (splitFirst sep rest).map (fun p => (c :: p.1, p.2))

/-- Strip a terminal `.md` from a filename, failing when the suffix is
absent. -/
def stripMdSuffix (f : PyStr) : Option PyStr :=
  if f.drop (f.length - 3) = [dotCode, mCode, dCode] then
    some (f.take (f.length - 3))
  else none

/-- One exactly-three-digit group of the filename grammar, yielding its
value; the value of three digits is at most 999, so only the lower bound
`MIN_SEGMENT_VALUE` needs checking. -/
def seg3 (d1 d2 d3 : Nat) : Option Nat :=
  if isDigitCode d1 && isDigitCode d2 && isDigitCode d3 then
    let v := (d1 - 48) * 100 + (d2 - 48) * 10 + (d3 - 48)
    if MIN_SEGMENT_VALUE ≤ v then some v else none
  else none

/-- Strict materialized-path field parser for the filename grammar: a
dash-joined sequence of exactly-three-digit groups. -/
def parseMpStrict : PyStr → Option (List Nat)
  | [d1, d2, d3] => (seg3 d1 d2 d3).map (fun v => [v])
  | d1 :: d2 :: d3 :: c :: rest2 =>
    if c = dashCode then
      match seg3 d1 d2 d3, parseMpStrict rest2 with
      | some v, some t => some (v :: t)
      | _, _ => none
    else none
  | _ => none

/-- Whether a string is a legal SQID value: non-empty alphanumeric of length
at most 20, the constraints of the `SQID` value object. -/
def validSqid (s : PyStr) : Bool := !s.isEmpty && s.length ≤ 20 && s.all isAlnumCode

/-- Whether a string is a legal doctype field: non-empty over alphanumerics
and hyphens.  Underscores are excluded: the filename grammar splits on the
first three underscores, so an underscore inside the doctype would ambiguate. -/
def validDoctype (s : PyStr) : Bool :=
  !s.isEmpty && s.all (fun c => isAlnumCode c || c = dashCode)

/-- Whether a string is a legal slug: non-empty over alphanumerics, hyphens
and underscores (the slug is the final field, so underscores are
unambiguous). -/
def validSlug (s : PyStr) : Bool :=
  !s.isEmpty && s.all (fun c => isAlnumCode c || c = dashCode || c = underscoreCode)

/-- Modelled from the spec: the filename codec `decode` operation
(FilenameCodec, section 4.2), whose implementation is not among the source
files here (only `Node.filename`, the encoder, is).  Following the spec's
words: split off the `.md` suffix, split the stem into exactly four fields
on the leftmost three underscores (so the slug may contain underscores),
validate each field against the filename grammar of section 3, and return a
structured error (`none`) on any malformation. -/
def decodeFilename (f : PyStr) : Option (List Nat × PyStr × PyStr × PyStr) :=
  match stripMdSuffix f with
  | none => none
  | some stem =>
    match splitFirst underscoreCode stem with
    | none => none
    | some (mpF, r1) =>
      match splitFirst underscoreCode r1 with
      | none => none
      | some (idF, r2) =>
        match splitFirst underscoreCode r2 with
        | none => none
        | some (dtF, slugF) =>
          match parseMpStrict mpF with
          | none => none
          | some mp =>
            if validSqid idF && validDoctype dtF && validSlug slugF then
              some (mp, idF, dtF, slugF)
            else none

/-! ### Lemmas about the filename codec -/

theorem pad3_mem_range {n c : Nat} (hn : n ≤ 999) (hc : c ∈ pad3 n) :
    48 ≤ c ∧ c ≤ 57 := by
  have h1 : n / 100 ≤ 9 := by omega
  have h2 : n / 10 % 10 ≤ 9 := by omega
  have h3 : n % 10 ≤ 9 := by omega
  simp only [pad3, List.mem_cons, List.not_mem_nil, or_false] at hc
  rcases hc with h | h | h <;> omega

theorem asStr_codes {mp : List Nat} (h : ∀ s ∈ mp, s ≤ 999) {c : Nat}
    (hc : c ∈ asStr mp) : c = dashCode ∨ (48 ≤ c ∧ c ≤ 57) := by
  induction mp with
  | nil => simp [asStr] at hc
  | cons s rest ih =>
    cases rest with
    | nil =>
      simp only [asStr] at hc
      exact Or.inr (pad3_mem_range (h s (by simp)) hc)
    | cons t rest2 =>
      simp only [asStr, List.mem_append, List.mem_cons] at hc
      rcases hc with h1 | h2 | h3
      · exact Or.inr (pad3_mem_range (h s (by simp)) h1)
      · exact Or.inl h2
      · exact ih (fun x hx => h x (List.mem_cons_of_mem _ hx)) h3

theorem validMp_bounds {mp : List Nat} (h : validMp mp = true) :
    ∀ s ∈ mp, 1 ≤ s ∧ s ≤ 999 := by
  intro s hs
  simp only [validMp, Bool.and_eq_true, List.all_eq_true] at h
  have := h.2 s hs
  simp only [validSeg, MIN_SEGMENT_VALUE, MAX_SEGMENT_VALUE, Bool.and_eq_true,
    decide_eq_true_eq] at this
  exact this

theorem underscore_not_mem_asStr {mp : List Nat} (h : validMp mp = true) :
    underscoreCode ∉ asStr mp := by
  intro hc
  rcases asStr_codes (fun s hs => (validMp_bounds h s hs).2) hc with h1 | h1
  · simp [underscoreCode, dashCode] at h1
  · simp only [underscoreCode] at h1; omega

theorem underscore_not_mem_alnum {s : PyStr} (h : s.all isAlnumCode = true) :
    underscoreCode ∉ s := by
  intro hc
  have := List.all_eq_true.mp h _ hc
  exact absurd this (by decide)

theorem underscore_not_mem_doctype {s : PyStr} (h : validDoctype s = true) :
    underscoreCode ∉ s := by
  intro hc
  simp only [validDoctype, Bool.and_eq_true, List.all_eq_true] at h
  have := h.2 _ hc
  exact absurd this (by decide)

theorem splitFirst_append {sep : Nat} {a : List Nat} (b : List Nat) (h : sep ∉ a) :
    splitFirst sep (a ++ sep :: b) = some (a, b) := by
  induction a with
  | nil => simp [splitFirst]
  | cons c a ih =>
    have hc : ¬ c = sep := fun hcc => h (by simp [hcc])
    simp only [List.cons_append, splitFirst, if_neg hc]
    rw [List.append_eq, ih (fun hx => h (List.mem_cons_of_mem _ hx))]
    rfl

theorem splitFirst_eq {sep : Nat} : ∀ {l a b : List Nat},
    splitFirst sep l = some (a, b) → l = a ++ sep :: b ∧ sep ∉ a := by
  intro l
  induction l with
  | nil => intro a b h; simp [splitFirst] at h
  | cons c rest ih =>
    intro a b h
    simp only [splitFirst] at h
    by_cases hc : c = sep
    · rw [if_pos hc] at h
      simp only [Option.some.injEq, Prod.mk.injEq] at h
      obtain ⟨ha, hb⟩ := h
      subst ha; subst hb; subst hc
      exact ⟨rfl, by simp⟩
    · rw [if_neg hc] at h
      cases hs : splitFirst sep rest with
      | none => rw [hs] at h; simp at h
      | some p =>
        rw [hs] at h
        simp only [Option.map_some', Option.some.injEq, Prod.mk.injEq] at h
        obtain ⟨ha, hb⟩ := h
        obtain ⟨hrest, hmem⟩ := ih hs
        subst hb
        constructor
        · rw [← ha]; simp [hrest]
        · rw [← ha]
          intro hx
          rcases List.mem_cons.mp hx with h1 | h1
          · exact hc h1.symm
          · exact hmem h1

theorem stripMdSuffix_append (x : List Nat) :
    stripMdSuffix (x ++ [dotCode, mCode, dCode]) = some x := by
  have hlen : (x ++ [dotCode, mCode, dCode]).length = x.length + 3 := by simp
  have hd : (x ++ [dotCode, mCode, dCode]).drop (x.length + 3 - 3) =
      [dotCode, mCode, dCode] := by
    have : x.length + 3 - 3 = x.length := by omega
    rw [this, List.drop_left]
  have ht : (x ++ [dotCode, mCode, dCode]).take (x.length + 3 - 3) = x := by
    have : x.length + 3 - 3 = x.length := by omega
    rw [this, List.take_left]
  simp [stripMdSuffix, hlen, hd, ht]

theorem stripMdSuffix_eq {f stem : List Nat} (h : stripMdSuffix f = some stem) :
    f = stem ++ [dotCode, mCode, dCode] := by
  simp only [stripMdSuffix] at h
  by_cases hc : f.drop (f.length - 3) = [dotCode, mCode, dCode]
  · rw [if_pos hc] at h
    injection h with h
    subst h
    conv_lhs => rw [← List.take_append_drop (f.length - 3) f]
    rw [hc]
  · rw [if_neg hc] at h; exact absurd h (by simp)

theorem isDigitCode_true {x : Nat} (h : x ≤ 9) : isDigitCode (48 + x) = true := by
  simp only [isDigitCode, Bool.and_eq_true, decide_eq_true_eq]
  omega

theorem digit_bounds {d : Nat} (h : isDigitCode d = true) : 48 ≤ d ∧ d ≤ 57 := by
  simp only [isDigitCode, Bool.and_eq_true, decide_eq_true_eq] at h
  exact h

theorem seg3_pad3 {s : Nat} (h1 : 1 ≤ s) (h2 : s ≤ 999) :
    seg3 (48 + s / 100) (48 + s / 10 % 10) (48 + s % 10) = some s := by
  have hd1 : isDigitCode (48 + s / 100) = true := isDigitCode_true (by omega)
  have hd2 : isDigitCode (48 + s / 10 % 10) = true := isDigitCode_true (by omega)
  have hd3 : isDigitCode (48 + s % 10) = true := isDigitCode_true (by omega)
  have hv : (48 + s / 100 - 48) * 100 + (48 + s / 10 % 10 - 48) * 10 +
      (48 + s % 10 - 48) = s := by omega
  simp only [seg3, hd1, hd2, hd3, Bool.and_self, Bool.and_true, Bool.true_and, if_true]
  rw [hv]
  simp only [MIN_SEGMENT_VALUE]
  rw [if_pos h1]

theorem seg3_eq {d1 d2 d3 v : Nat} (h : seg3 d1 d2 d3 = some v) :
    pad3 v = [d1, d2, d3] ∧ 1 ≤ v ∧ v ≤ 999 := by
  simp only [seg3] at h
  by_cases hdig : (isDigitCode d1 && isDigitCode d2 && isDigitCode d3) = true
  · rw [if_pos hdig] at h
    obtain ⟨hdig12, hdig3⟩ := Bool.and_eq_true_iff.mp hdig
    obtain ⟨hdig1, hdig2⟩ := Bool.and_eq_true_iff.mp hdig12
    obtain ⟨hb1, hb1u⟩ := digit_bounds hdig1
    obtain ⟨hb2, hb2u⟩ := digit_bounds hdig2
    obtain ⟨hb3, hb3u⟩ := digit_bounds hdig3
    by_cases hv : MIN_SEGMENT_VALUE ≤ (d1 - 48) * 100 + (d2 - 48) * 10 + (d3 - 48)
    · rw [if_pos hv] at h
      injection h with h
      subst h
      simp only [MIN_SEGMENT_VALUE] at hv
      refine ⟨?_, hv, by omega⟩
      simp only [pad3]
      have e1 : 48 + ((d1 - 48) * 100 + (d2 - 48) * 10 + (d3 - 48)) / 100 = d1 := by omega
      have e2 : 48 + ((d1 - 48) * 100 + (d2 - 48) * 10 + (d3 - 48)) / 10 % 10 = d2 := by
        omega
      have e3 : 48 + ((d1 - 48) * 100 + (d2 - 48) * 10 + (d3 - 48)) % 10 = d3 := by omega
      rw [e1, e2, e3]
    · rw [if_neg hv] at h; exact absurd h (by simp)
  · rw [if_neg hdig] at h; exact absurd h (by simp)

theorem parseMpStrict_asStr {mp : List Nat} (h : validMp mp = true) :
    parseMpStrict (asStr mp) = some mp := by
  induction mp with
  | nil => simp [validMp] at h
  | cons s rest ih =>
    have hs : 1 ≤ s ∧ s ≤ 999 := validMp_bounds h s (by simp)
    cases rest with
    | nil =>
      simp only [asStr, pad3]
      rw [parseMpStrict, seg3_pad3 hs.1 hs.2]
      rfl
    | cons t rest2 =>
      have hrest : validMp (t :: rest2) = true := by
        simp only [validMp, Bool.and_eq_true, List.all_eq_true] at h ⊢
        exact ⟨by simp, fun x hx => h.2 x (List.mem_cons_of_mem _ hx)⟩
      simp only [asStr, pad3, List.cons_append, List.nil_append]
      rw [parseMpStrict]
      rw [if_pos rfl, seg3_pad3 hs.1 hs.2, ih hrest]

theorem parseMpStrict_eq : ∀ {l mp : List Nat},
    parseMpStrict l = some mp → asStr mp = l ∧ validMp mp = true := by
  intro l
  induction l using parseMpStrict.induct with
  | case1 d1 d2 d3 =>
    intro mp h
    rw [parseMpStrict] at h
    rcases Option.map_eq_some'.mp h with ⟨v, hv, hmp⟩
    obtain ⟨hpad, hv1, hv2⟩ := seg3_eq hv
    subst hmp
    refine ⟨?_, ?_⟩
    · simpa only [asStr] using hpad
    · simp only [validMp, validSeg, MIN_SEGMENT_VALUE, MAX_SEGMENT_VALUE,
        List.isEmpty_cons, List.all_cons, List.all_nil, Bool.not_false, Bool.and_true,
        Bool.true_and, Bool.and_eq_true, decide_eq_true_eq]
      omega
  | case2 d1 d2 d3 rest2 v t hp hseg ih =>
    intro mp h
    rw [parseMpStrict] at h
    rw [if_pos rfl, hseg, hp] at h
    injection h with h
    subst h
    obtain ⟨hstr, hval⟩ := ih hp
    obtain ⟨hpad, hv1, hv2⟩ := seg3_eq hseg
    have htne : ¬ t.isEmpty = true := by
      simp only [validMp, Bool.and_eq_true, Bool.not_eq_true'] at hval
      simp [hval.1]
    refine ⟨?_, ?_⟩
    · cases t with
      | nil => simp at htne
      | cons x xs =>
        simp only [asStr]
        rw [hpad, hstr]
        rfl
    · simp only [validMp, validSeg, MIN_SEGMENT_VALUE, MAX_SEGMENT_VALUE,
        List.isEmpty_cons, List.all_cons, Bool.not_false, Bool.true_and,
        Bool.and_eq_true, decide_eq_true_eq] at hval ⊢
      exact ⟨⟨hv1, hv2⟩, hval.2⟩
  | case3 d1 d2 d3 rest2 hfail ih =>
    intro mp h
    rw [parseMpStrict] at h
    rw [if_pos rfl] at h
    cases hseg : seg3 d1 d2 d3 with
    | none => rw [hseg] at h; exact absurd h (by simp)
    | some v =>
      cases hp : parseMpStrict rest2 with
      | none => rw [hseg, hp] at h; exact absurd h (by simp)
      | some t => exact (hfail v t hseg hp).elim
  | case4 d1 d2 d3 c rest2 hc =>
    intro mp h
    rw [parseMpStrict] at h
    rw [if_neg hc] at h
    exact absurd h (by simp)
  | case5 t hshape3 hshape4 =>
    intro mp h
    cases t with
    | nil =>
      have hn : parseMpStrict [] = none := rfl
      rw [hn] at h; exact absurd h (by simp)
    | cons a t1 =>
      cases t1 with
      | nil =>
        have hn : parseMpStrict [a] = none := rfl
        rw [hn] at h; exact absurd h (by simp)
      | cons b t2 =>
        cases t2 with
        | nil =>
          have hn : parseMpStrict [a, b] = none := rfl
          rw [hn] at h; exact absurd h (by simp)
        | cons c t3 =>
          cases t3 with
          | nil => exact (hshape3 a b c rfl).elim
          | cons d r => exact (hshape4 a b c d r rfl).elim

theorem decode_encode {mp : List Nat} {sqid dt slug : PyStr}
    (h1 : validMp mp = true) (h2 : validSqid sqid = true)
    (h3 : validDoctype dt = true) (h4 : validSlug slug = true) :
    decodeFilename (encodeFilename mp sqid dt slug) = some (mp, sqid, dt, slug) := by
  have husq : underscoreCode ∉ sqid := by
    simp only [validSqid, Bool.and_eq_true] at h2
    exact underscore_not_mem_alnum h2.2
  have hudt : underscoreCode ∉ dt := underscore_not_mem_doctype h3
  have hump : underscoreCode ∉ asStr mp := underscore_not_mem_asStr h1
  have hstem : encodeFilename mp sqid dt slug =
      (asStr mp ++ underscoreCode :: (sqid ++ underscoreCode :: (dt ++ underscoreCode :: slug)))
        ++ [dotCode, mCode, dCode] := by
    simp [encodeFilename, List.append_assoc]
  have e1 : splitFirst underscoreCode
      (asStr mp ++ underscoreCode :: (sqid ++ underscoreCode :: (dt ++ underscoreCode :: slug))) =
      some (asStr mp, sqid ++ underscoreCode :: (dt ++ underscoreCode :: slug)) :=
    splitFirst_append _ hump
  have e2 : splitFirst underscoreCode (sqid ++ underscoreCode :: (dt ++ underscoreCode :: slug)) =
      some (sqid, dt ++ underscoreCode :: slug) := splitFirst_append _ husq
  have e3 : splitFirst underscoreCode (dt ++ underscoreCode :: slug) = some (dt, slug) :=
    splitFirst_append _ hudt
  rw [hstem]
  simp only [decodeFilename, stripMdSuffix_append, e1, e2, e3, parseMpStrict_asStr h1]
  rw [if_pos]
  simp only [h2, h3, h4, Bool.and_self]

theorem encode_decode : ∀ {f : PyStr} {mp : List Nat} {sqid dt slug : PyStr},
    decodeFilename f = some (mp, sqid, dt, slug) →
    encodeFilename mp sqid dt slug = f := by
  intro f mp sqid dt slug h
  simp only [decodeFilename] at h
  split at h
  · exact absurd h (by simp)
  next stem hs =>
    split at h
    · exact absurd h (by simp)
    next mpF r1 h1 =>
      split at h
      · exact absurd h (by simp)
      next idF r2 h2 =>
        split at h
        · exact absurd h (by simp)
        next dtF slugF h3 =>
          split at h
          · exact absurd h (by simp)
          next mp2 hm =>
            split at h
            next hg =>
              simp only [Option.some.injEq, Prod.mk.injEq] at h
              obtain ⟨hmp, hid, hdt, hslug⟩ := h
              subst hmp; subst hid; subst hdt; subst hslug
              have hf : f = stem ++ [dotCode, mCode, dCode] := stripMdSuffix_eq hs
              have hst : stem = mpF ++ underscoreCode :: r1 := (splitFirst_eq h1).1
              have hr1 : r1 = idF ++ underscoreCode :: r2 := (splitFirst_eq h2).1
              have hr2 : r2 = dtF ++ underscoreCode :: slugF := (splitFirst_eq h3).1
              have hmpf : asStr mp2 = mpF := (parseMpStrict_eq hm).1
              rw [hf, hst, hr1, hr2, ← hmpf]
              simp [encodeFilename, List.append_assoc]
            next hg =>
              exact absurd h (by simp)

/-- C1: filename codec round-trip.  For every valid quadruple
`(path, id, doctype, slug)` the decoder inverts the encoder exactly, where
the encoder (`Node.filename`) produces `{mp}_{id}_{doctype}_{slug}.md` with
the materialized path in canonical dash-joined zero-padded form; and for
every legal filename string (one the decoder accepts), re-encoding the
decoded quadruple reproduces the filename. -/
theorem claim_C1_filename_codec_roundtrip :
    (∀ (mp : List Nat) (sqid dt slug : PyStr),
      validMp mp = true → validSqid sqid = true → validDoctype dt = true →
      validSlug slug = true →
      decodeFilename (encodeFilename mp sqid dt slug) = some (mp, sqid, dt, slug)) ∧
    (∀ (f : PyStr) (mp : List Nat) (sqid dt slug : PyStr),
      decodeFilename f = some (mp, sqid, dt, slug) →
      encodeFilename mp sqid dt slug = f) :=
  ⟨fun _ _ _ _ h1 h2 h3 h4 => decode_encode h1 h2 h3 h4,
   fun _ _ _ _ _ h => encode_decode h⟩

/-- Witness for C1 at the concrete node `001-100_A_draft_ab.md`. -/
theorem claim_C1_filename_codec_roundtrip_witness :
    decodeFilename (encodeFilename [1, 100] [65] [100, 114, 97, 102, 116] [97, 98]) =
      some ([1, 100], [65], [100, 114, 97, 102, 116], [97, 98]) ∧
    encodeFilename [1, 100] [65] [100, 114, 97, 102, 116] [97, 98] =
      encodeFilename [1, 100] [65] [100, 114, 97, 102, 116] [97, 98] :=
  ⟨claim_C1_filename_codec_roundtrip.1 [1, 100] [65] [100, 114, 97, 102, 116] [97, 98]
      (by decide) (by decide) (by decide) (by decide),
   claim_C1_filename_codec_roundtrip.2
      (encodeFilename [1, 100] [65] [100, 114, 97, 102, 116] [97, 98])
      [1, 100] [65] [100, 114, 97, 102, 116] [97, 98] (by decide)⟩

/-! ### Lemmas about path-string parsing -/

/-- Whether a digit group spells a segment value: non-empty, all digits,
with the given numeric value (leading zeros allowed). -/
def spellsSeg (g : List Nat) (v : Nat) : Bool :=
  !g.isEmpty && g.all isDigitCode && (groupVal g == v)

/-- Whether a list of groups spells a list of segment values pointwise. -/
def segsSpell : List (List Nat) → List Nat → Bool
  | [], [] => true
  | g :: gs, v :: vs => spellsSeg g v && segsSpell gs vs
  | _, _ => false

/-- Whether a text spells a segment list when split on dashes. -/
def spellsMp (r : PyStr) (segs : List Nat) : Bool :=
  segsSpell (splitAll dashCode r) segs

theorem splitAll_ne_nil {sep : Nat} : ∀ {l : List Nat}, splitAll sep l ≠ [] := by
  intro l
  cases l with
  | nil => simp [splitAll]
  | cons c rest =>
    simp only [splitAll]
    by_cases hc : c = sep
    · simp [hc]
    · simp [hc]

theorem splitAll_no_sep {sep : Nat} : ∀ {g : List Nat}, sep ∉ g →
    splitAll sep g = [g] := by
  intro g
  induction g with
  | nil => intro _; rfl
  | cons c g ih =>
    intro h
    have hc : ¬ c = sep := fun hcc => h (by simp [hcc])
    simp only [splitAll, ih (fun hx => h (List.mem_cons_of_mem _ hx)), if_neg hc,
      List.headD_cons, List.tail_cons]

theorem splitAll_append {sep : Nat} : ∀ {g : List Nat}, sep ∉ g → ∀ (rest : List Nat),
    splitAll sep (g ++ sep :: rest) = g :: splitAll sep rest := by
  intro g
  induction g with
  | nil =>
    intro _ rest
    simp [splitAll]
  | cons c g ih =>
    intro h rest
    have hc : ¬ c = sep := fun hcc => h (by simp [hcc])
    simp only [List.cons_append, splitAll, List.append_eq,
      ih (fun hx => h (List.mem_cons_of_mem _ hx)) rest,
      if_neg hc, List.headD_cons, List.tail_cons]

theorem dash_not_mem_pad3 {s : Nat} (h : s ≤ 999) : dashCode ∉ pad3 s := by
  intro hc
  have := pad3_mem_range h hc
  simp only [dashCode] at this
  omega

theorem groupVal_pad3 {s : Nat} (h : s ≤ 999) : groupVal (pad3 s) = s := by
  simp only [groupVal, pad3, List.foldl_cons, List.foldl_nil]
  omega

theorem pyInt_pad3 {s : Nat} (h : s ≤ 999) : pyInt? (pad3 s) = some (groupVal (pad3 s)) := by
  have hd1 : isDigitCode (48 + s / 100) = true := isDigitCode_true (by omega)
  have hd2 : isDigitCode (48 + s / 10 % 10) = true := isDigitCode_true (by omega)
  have hd3 : isDigitCode (48 + s % 10) = true := isDigitCode_true (by omega)
  simp [pyInt?, pad3, hd1, hd2, hd3]

theorem splitAll_asStr {mp : List Nat} (h : validMp mp = true) :
    splitAll dashCode (asStr mp) = mp.map pad3 := by
  induction mp with
  | nil => simp [validMp] at h
  | cons s rest ih =>
    have hs : 1 ≤ s ∧ s ≤ 999 := validMp_bounds h s (by simp)
    cases rest with
    | nil => simp only [asStr, List.map_cons, List.map_nil,
        splitAll_no_sep (dash_not_mem_pad3 hs.2)]
    | cons t rest2 =>
      have hrest : validMp (t :: rest2) = true := by
        simp only [validMp, Bool.and_eq_true, List.all_eq_true] at h ⊢
        exact ⟨by simp, fun x hx => h.2 x (List.mem_cons_of_mem _ hx)⟩
      simp only [asStr, List.map_cons]
      rw [splitAll_append (dash_not_mem_pad3 hs.2), ih hrest]
      rfl

theorem mapM_pyInt_pads {mp : List Nat} (h : ∀ s ∈ mp, s ≤ 999) :
    (mp.map pad3).mapM pyInt? = some mp := by
  induction mp with
  | nil => rfl
  | cons s rest ih =>
    have hs : s ≤ 999 := h s (by simp)
    simp only [List.map_cons, List.mapM_cons, pyInt_pad3 hs, groupVal_pad3 hs,
      ih (fun x hx => h x (List.mem_cons_of_mem _ hx)), Option.bind_some, Option.pure_def,
      Option.bind_eq_bind, Option.some_bind]

theorem mkMaterializedPath_eq (segs : List Nat) :
    mkMaterializedPath segs = if validMp segs then some segs else none := by
  simp only [mkMaterializedPath, validMp]
  by_cases he : segs.isEmpty = true
  · simp [he]
  · simp only [Bool.not_eq_true] at he
    simp [he]

theorem spellsMp_fromString {r : PyStr} {segs : List Nat}
    (h : spellsMp r segs = true) : fromString r = mkMaterializedPath segs := by
  have hr : ¬ r.isEmpty = true := by
    intro he
    have hre : r = [] := by simpa using he
    subst hre
    cases segs with
    | nil => simp [spellsMp, splitAll, segsSpell, spellsSeg] at h
    | cons v vs => simp [spellsMp, splitAll, segsSpell, spellsSeg] at h
  have hmap : (splitAll dashCode r).mapM pyInt? = some segs := by
    have : ∀ (gs : List (List Nat)) (vs : List Nat), segsSpell gs vs = true →
        gs.mapM pyInt? = some vs := by
      intro gs
      induction gs with
      | nil => intro vs hv; cases vs with
        | nil => rfl
        | cons v vs => simp [segsSpell] at hv
      | cons g gs ih =>
        intro vs hv
        cases vs with
        | nil => simp [segsSpell] at hv
        | cons v vs =>
          simp only [segsSpell, Bool.and_eq_true] at hv
          obtain ⟨hseg, hrest⟩ := hv
          simp only [spellsSeg, Bool.and_eq_true, beq_iff_eq] at hseg
          obtain ⟨⟨hne, hdig⟩, hval⟩ := hseg
          have hp : pyInt? g = some v := by
            simp only [pyInt?, hdig, if_true]
            rw [if_neg (by simpa using hne)]
            rw [hval]
          simp only [List.mapM_cons, hp, ih vs hrest, Option.pure_def,
            Option.bind_eq_bind, Option.some_bind]
    exact this _ _ h
  simp only [fromString, if_neg hr, hmap]

theorem fromString_asStr {mp : List Nat} (h : validMp mp = true) :
    fromString (asStr mp) = some mp := by
  have hb := validMp_bounds h
  have hne : ¬ (asStr mp).isEmpty = true := by
    cases mp with
    | nil => simp [validMp] at h
    | cons s rest =>
      cases rest with
      | nil => simp [asStr, pad3]
      | cons t r2 => simp [asStr, pad3]
  simp only [fromString, if_neg hne, splitAll_asStr h,
    mapM_pyInt_pads (fun s hs => (hb s hs).2), mkMaterializedPath_eq, h, if_true]

/-- C7: materialized-path construction fails with a domain error exactly when
the segment sequence is empty or some segment lies outside `[1, 999]`; the
boundary values 1 and 999 are accepted and 0 and 1000 rejected, and
`from_string` on a text spelling out-of-range segments is rejected too. -/
theorem claim_C7_mp_construction_validation :
    (∀ segs : List Nat,
      mkMaterializedPath segs = some segs ↔
        segs ≠ [] ∧ ∀ s ∈ segs, 1 ≤ s ∧ s ≤ 999) ∧
    (∀ segs : List Nat,
      mkMaterializedPath segs = none ↔
        (segs = [] ∨ ∃ s ∈ segs, s < 1 ∨ 999 < s)) ∧
    (∀ (r : PyStr) (segs : List Nat), spellsMp r segs = true →
      (segs = [] ∨ ∃ s ∈ segs, s < 1 ∨ 999 < s) → fromString r = none) ∧
    mkMaterializedPath [1] = some [1] ∧ mkMaterializedPath [999] = some [999] ∧
    mkMaterializedPath [0] = none ∧ mkMaterializedPath [1000] = none ∧
    mkMaterializedPath [] = none := by
  have hval : ∀ segs : List Nat, validMp segs = true ↔
      segs ≠ [] ∧ ∀ s ∈ segs, 1 ≤ s ∧ s ≤ 999 := by
    intro segs
    constructor
    · intro h
      refine ⟨?_, validMp_bounds h⟩
      intro he; subst he; simp [validMp] at h
    · rintro ⟨h1, h2⟩
      simp only [validMp, Bool.and_eq_true, List.all_eq_true]
      refine ⟨by simp [h1], ?_⟩
      intro s hs
      simp only [validSeg, MIN_SEGMENT_VALUE, MAX_SEGMENT_VALUE, Bool.and_eq_true,
        decide_eq_true_eq]
      exact h2 s hs
  have hsome : ∀ segs : List Nat, mkMaterializedPath segs = some segs ↔
      segs ≠ [] ∧ ∀ s ∈ segs, 1 ≤ s ∧ s ≤ 999 := by
    intro segs
    rw [mkMaterializedPath_eq, ← hval]
    by_cases hv : validMp segs = true
    · simp [hv]
    · simp [hv]
  have hnone : ∀ segs : List Nat, mkMaterializedPath segs = none ↔
      (segs = [] ∨ ∃ s ∈ segs, s < 1 ∨ 999 < s) := by
    intro segs
    rw [mkMaterializedPath_eq]
    by_cases hv : validMp segs = true
    · rw [if_pos hv]
      obtain ⟨h1, h2⟩ := (hval segs).mp hv
      constructor
      · intro hh; simp at hh
      · rintro (he | ⟨s, hs, hb⟩)
        · exact absurd he h1
        · exfalso; have := h2 s hs; omega
    · rw [if_neg hv]
      simp only [true_iff]
      by_cases he : segs = []
      · exact Or.inl he
      · right
        by_contra hno
        push_neg at hno
        exact hv ((hval segs).mpr ⟨he, fun s hs => by have := hno s hs; omega⟩)
  refine ⟨hsome, hnone, ?_, by decide, by decide, by decide, by decide, by decide⟩
  intro r segs hsp hbad
  rw [spellsMp_fromString hsp]
  exact (hnone segs).mpr hbad

/-- Witness for C7: all parts instantiated at concrete segment lists, with
the `from_string` part at the text `0` spelling the out-of-range segment 0. -/
theorem claim_C7_mp_construction_validation_witness :
    mkMaterializedPath [1, 100] = some [1, 100] ∧
    mkMaterializedPath [7, 1000] = none ∧
    fromString [48] = none := by
  refine ⟨?_, ?_, ?_⟩
  · exact (claim_C7_mp_construction_validation.1 [1, 100]).mpr (by decide)
  · exact (claim_C7_mp_construction_validation.2.1 [7, 1000]).mpr (by decide)
  · exact claim_C7_mp_construction_validation.2.2.1 [48] [0] (by decide) (by decide)

/-- C10: lenient path parsing.  `from_string` accepts dash-separated digit
groups that are not zero-padded, mapping any spelling of a valid segment
list to that list, so distinct accepted strings (for example the digits of
`1-100` and of `001-100`) map to the same value and `from_string` is not
injective; and on the canonical rendering `as_string` it restores the exact
segment list. -/
theorem claim_C10_lenient_from_string :
    (∀ (r : PyStr) (segs : List Nat), spellsMp r segs = true → validMp segs = true →
      fromString r = some segs) ∧
    (fromString [49, 45, 49, 48, 48] = some [1, 100] ∧
      fromString (asStr [1, 100]) = some [1, 100] ∧
      [49, 45, 49, 48, 48] ≠ asStr [1, 100]) ∧
    (∀ mp : List Nat, validMp mp = true → fromString (asStr mp) = some mp) := by
  refine ⟨?_, ⟨by decide, by decide, by decide⟩, fun mp h => fromString_asStr h⟩
  intro r segs hsp hv
  rw [spellsMp_fromString hsp, mkMaterializedPath_eq, if_pos hv]

/-- Witness for C10: the unpadded spelling `1-100` parses to the same path
as the canonical `001-100`. -/
theorem claim_C10_lenient_from_string_witness :
    fromString [49, 45, 49, 48, 48] = some [1, 100] ∧
    fromString (asStr [1, 100]) = some [1, 100] :=
  ⟨claim_C10_lenient_from_string.1 [49, 45, 49, 48, 48] [1, 100] (by decide) (by decide),
   claim_C10_lenient_from_string.2.2 [1, 100] (by decide)⟩

/-! ### Lexicographic order on code-point lists and on paths

Python compares strings code-point-lexicographically; `lexLt` is that
comparison on the `PyStr` embedding, and also serves as the segment-list
order on materialized paths. -/

/-- Strict code-point-lexicographic comparison, the Python string `<`. -/
def lexLt : List Nat → List Nat → Bool
  | [], [] => false
  | [], _ :: _ => true
  | _ :: _, [] => false
  | a :: as, b :: bs => if a < b then true else if a = b then lexLt as bs else false

/-- Non-strict lexicographic comparison, the Python string `<=`. -/
def lexLe (a b : List Nat) : Bool := !(lexLt b a)

theorem lexLt_nil_right : ∀ l : List Nat, lexLt l [] = false
  | [] => rfl
  | _ :: _ => rfl

theorem lexLt_nil_left : ∀ l : List Nat, lexLt [] l = !l.isEmpty
  | [] => rfl
  | _ :: _ => rfl

theorem lexLt_irrefl : ∀ a : List Nat, lexLt a a = false
  | [] => rfl
  | a :: as => by simp [lexLt, lexLt_irrefl as]

theorem lexLt_cons_same {x : Nat} {as bs : List Nat} :
    lexLt (x :: as) (x :: bs) = lexLt as bs := by
  simp [lexLt]

theorem lexLt_trans : ∀ (a b c : List Nat),
    lexLt a b = true → lexLt b c = true → lexLt a c = true := by
  intro a
  induction a with
  | nil =>
    intro b c h1 h2
    cases b with
    | nil => simp [lexLt] at h1
    | cons y bs =>
      cases c with
      | nil => simp [lexLt] at h2
      | cons z cs => simp [lexLt]
  | cons x as ih =>
    intro b c h1 h2
    cases b with
    | nil => simp [lexLt] at h1
    | cons y bs =>
      cases c with
      | nil => simp [lexLt] at h2
      | cons z cs =>
        simp only [lexLt] at h1 h2 ⊢
        by_cases hxy : x < y
        · by_cases hyz : y < z
          · rw [if_pos (by omega)]
          · rw [if_neg hyz] at h2
            by_cases hyz2 : y = z
            · subst hyz2; rw [if_pos hxy]
            · rw [if_neg hyz2] at h2; exact absurd h2 (by simp)
        · rw [if_neg hxy] at h1
          by_cases hxy2 : x = y
          · subst hxy2
            rw [if_pos rfl] at h1
            by_cases hyz : x < z
            · rw [if_pos hyz]
            · rw [if_neg hyz] at h2 ⊢
              by_cases hxz : x = z
              · rw [if_pos hxz] at h2 ⊢; exact ih bs cs h1 h2
              · rw [if_neg hxz] at h2; exact absurd h2 (by simp)
          · rw [if_neg hxy2] at h1; exact absurd h1 (by simp)

theorem lexLt_asymm {a b : List Nat} (h : lexLt a b = true) : lexLt b a = false := by
  by_contra hc
  have hba : lexLt b a = true := by simpa using hc
  have := lexLt_trans a b a h hba
  rw [lexLt_irrefl] at this
  exact absurd this (by simp)

theorem lexLt_total : ∀ (a b : List Nat), a = b ∨ lexLt a b = true ∨ lexLt b a = true := by
  intro a
  induction a with
  | nil =>
    intro b
    cases b with
    | nil => exact Or.inl rfl
    | cons y bs => exact Or.inr (Or.inl (by simp [lexLt]))
  | cons x as ih =>
    intro b
    cases b with
    | nil => exact Or.inr (Or.inr (by simp [lexLt]))
    | cons y bs =>
      rcases Nat.lt_trichotomy x y with h | h | h
      · exact Or.inr (Or.inl (by simp [lexLt, h]))
      · subst h
        rcases ih bs with h2 | h2 | h2
        · exact Or.inl (by rw [h2])
        · exact Or.inr (Or.inl (by simp [lexLt, h2]))
        · exact Or.inr (Or.inr (by simp [lexLt, h2]))
      · exact Or.inr (Or.inr (by simp [lexLt, h]))

/-- The strict lexicographic order as a proposition. -/
def LexLtP (a b : List Nat) : Prop := lexLt a b = true

/-- The non-strict lexicographic order as a proposition. -/
def LexLeP (a b : List Nat) : Prop := lexLe a b = true

instance : DecidableRel LexLtP := fun a b => inferInstanceAs (Decidable (_ = true))

instance : DecidableRel LexLeP := fun a b => inferInstanceAs (Decidable (_ = true))

instance : IsTotal (List Nat) LexLeP := by
  constructor
  intro a b
  rcases lexLt_total a b with h | h | h
  · subst h; left; simp [LexLeP, lexLe, lexLt_irrefl]
  · left; simp [LexLeP, lexLe, lexLt_asymm h]
  · right; simp [LexLeP, lexLe, lexLt_asymm h]

instance : IsTrans (List Nat) LexLeP := by
  constructor
  intro a b c hab hbc
  simp only [LexLeP, lexLe, Bool.not_eq_true'] at hab hbc ⊢
  by_contra hc
  have hca : lexLt c a = true := by simpa using hc
  rcases lexLt_total a b with h | h | h
  · subst h; rw [hca] at hbc; exact absurd hbc (by simp)
  · have := lexLt_trans c a b hca h
    rw [this] at hbc; exact absurd hbc (by simp)
  · rw [h] at hab; exact absurd hab (by simp)

instance : IsAntisymm (List Nat) LexLeP := by
  constructor
  intro a b hab hba
  simp only [LexLeP, lexLe, Bool.not_eq_true'] at hab hba
  rcases lexLt_total a b with h | h | h
  · exact h
  · rw [h] at hba; exact absurd hba (by simp)
  · rw [h] at hab; exact absurd hab (by simp)

theorem lexLt_le {a b : List Nat} (h : lexLt a b = true) : LexLeP a b := by
  simp [LexLeP, lexLe, lexLt_asymm h]

/-! ### Padded rendering agrees with segment order -/

theorem lexLt_append_pad3_lt {x y : Nat} (hx : x ≤ 999) (hy : y ≤ 999) (hxy : x < y)
    (u v : List Nat) : lexLt (pad3 x ++ u) (pad3 y ++ v) = true := by
  simp only [pad3, List.cons_append, lexLt]
  by_cases h1 : x / 100 < y / 100
  · rw [if_pos (by omega)]
  · have e1 : x / 100 = y / 100 := by omega
    rw [if_neg (by omega), if_pos (by omega)]
    by_cases h2 : x / 10 % 10 < y / 10 % 10
    · rw [if_pos (by omega)]
    · have e2 : x / 10 % 10 = y / 10 % 10 := by omega
      rw [if_neg (by omega), if_pos (by omega)]
      have h3 : x % 10 < y % 10 := by omega
      rw [if_pos (by omega)]

theorem lexLt_append_pad3_eq (x : Nat) (u v : List Nat) :
    lexLt (pad3 x ++ u) (pad3 x ++ v) = lexLt u v := by
  simp only [pad3, List.cons_append, lexLt]
  simp

/-- Tail part of `asStr` after the first rendered segment. -/
def asStrTail (xs : List Nat) : List Nat :=
  match xs with
  | [] => []
  | _ :: _ => dashCode :: asStr xs

theorem asStr_cons (x : Nat) (xs : List Nat) : asStr (x :: xs) = pad3 x ++ asStrTail xs := by
  cases xs with
  | nil => simp [asStr, asStrTail]
  | cons t r => simp [asStr, asStrTail]

theorem lexLt_asStr : ∀ (a b : List Nat), (∀ s ∈ a, s ≤ 999) → (∀ s ∈ b, s ≤ 999) →
    lexLt (asStr a) (asStr b) = lexLt a b := by
  intro a
  induction a with
  | nil =>
    intro b _ _
    cases b with
    | nil => rfl
    | cons y bs =>
      rw [show asStr [] = [] from rfl, asStr_cons]
      rw [lexLt_nil_left, lexLt_nil_left]
      simp [pad3]
  | cons x xs ih =>
    intro b ha hb
    cases b with
    | nil =>
      rw [show asStr [] = [] from rfl, asStr_cons]
      rw [lexLt_nil_right, lexLt_nil_right]
    | cons y bs =>
      have hx : x ≤ 999 := ha x (by simp)
      have hy : y ≤ 999 := hb y (by simp)
      rw [asStr_cons, asStr_cons]
      rcases Nat.lt_trichotomy x y with hxy | hxy | hxy
      · rw [lexLt_append_pad3_lt hx hy hxy]
        simp [lexLt, hxy]
      · subst hxy
        rw [lexLt_append_pad3_eq, lexLt_cons_same]
        cases xs with
        | nil =>
          cases bs with
          | nil => rfl
          | cons t r => simp [asStrTail, lexLt_nil_left, lexLt]
        | cons u us =>
          cases bs with
          | nil => simp [asStrTail, lexLt_nil_right, lexLt]
          | cons t r =>
            simp only [asStrTail, lexLt_cons_same]
            exact ih (t :: r) (fun s hs => ha s (List.mem_cons_of_mem _ hs))
              (fun s hs => hb s (List.mem_cons_of_mem _ hs))
      · have hL : lexLt (pad3 y ++ asStrTail bs) (pad3 x ++ asStrTail xs) = true :=
          lexLt_append_pad3_lt hy hx hxy _ _
        rw [lexLt_asymm hL]
        have hR : lexLt (x :: xs) (y :: bs) = false := by
          simp only [lexLt]
          rw [if_neg (by omega), if_neg (by omega)]
        rw [hR]

/-! ### Outline sorting and depth-first preorder -/

/-- Relation used by `Outline.all_sorted`: Python `sorted` keyed by
`as_string` compares the rendered keys with the string order. -/
def nodeKeyLe (a b : Node) : Prop := LexLeP (asStr a.mp) (asStr b.mp)

instance : DecidableRel nodeKeyLe := fun a b => inferInstanceAs (Decidable (_ = true))

/-- Embedding of `Outline.all_sorted`: sort the nodes by the `as_string`
key (Python `sorted` is a stable comparison sort; insertion sort is stable
and sorts by the same total preorder). -/
def all_sorted (o : List Node) : List Node := List.insertionSort nodeKeyLe o

/-- Next-segment values of all paths in `S` strictly extending the prefix
`pre`, deduplicated and sorted ascending. -/
def childSegs (S : List (List Nat)) (pre : List Nat) : List Nat :=
  List.insertionSort (fun a b => a ≤ b)
    (((S.filter (fun q => pre.isPrefixOf q && decide (pre.length < q.length))).map
        (fun q => q.getD pre.length 0)).dedup)

/-- Modelled from the spec: the depth-first pre-order traversal of the tree
induced by a set of materialized paths (the "depth-first path order" of
sections 3 and 8, against which `all_sorted` is compared): at each prefix,
walk the occupied child positions in ascending order, emitting the node at a
position (when present) before its subtree. -/
def visit (S : List (List Nat)) : Nat → List Nat → List (List Nat)
  | 0, _ => []
  | fuel + 1, pre =>
    (childSegs S pre).flatMap (fun s =>
      (if (pre ++ [s]) ∈ S then [pre ++ [s]] else []) ++ visit S fuel (pre ++ [s]))

/-- Maximum path depth over a path set. -/
def maxDepth (S : List (List Nat)) : Nat := (S.map List.length).foldr max 0

/-- Depth-first pre-order of the whole forest. -/
def specPreorder (S : List (List Nat)) : List (List Nat) := visit S (maxDepth S) []

/-- Iterated-`parent` reachability with explicit fuel (each `parent` step
shortens the path, so the starting length bounds the chain). -/
def ancestorChainAux (a : List Nat) : Nat → List Nat → Bool
  | 0, _ => false
  | fuel + 1, b =>
    match mpParent b with
    | none => false
    | some p => (p == a) || ancestorChainAux a fuel p

/-- Whether `a` is a strict ancestor of `b` in the tree sense: `a` is
reachable from `b` by iterating `MaterializedPath.parent`. -/
def isAncestorOf (a b : List Nat) : Bool := ancestorChainAux a b.length b

/-! ### Helper lemmas on prefixes and segments -/

theorem getD_append_cons : ∀ (pre : List Nat) (s : Nat) (u : List Nat),
    (pre ++ s :: u).getD pre.length 0 = s := by
  intro pre
  induction pre with
  | nil => intro s u; rfl
  | cons a p ih => intro s u; simpa using ih s u

theorem prefix_getD {pre q : List Nat} (hpre : pre <+: q) (hlen : pre.length < q.length) :
    pre ++ [q.getD pre.length 0] <+: q := by
  obtain ⟨t, rfl⟩ := hpre
  cases t with
  | nil => simp at hlen
  | cons c r =>
    rw [getD_append_cons]
    exact ⟨r, by simp⟩

theorem eq_append_getD_drop {pre q : List Nat} (hpre : pre <+: q)
    (hlen : pre.length < q.length) :
    q = pre ++ q.getD pre.length 0 :: q.drop (pre.length + 1) := by
  obtain ⟨t, rfl⟩ := hpre
  cases t with
  | nil => simp at hlen
  | cons c r =>
    rw [getD_append_cons]
    congr 1
    congr 1
    have : pre.length + 1 = (pre ++ [c]).length := by simp
    rw [this, show pre ++ c :: r = (pre ++ [c]) ++ r by simp, List.drop_left]

theorem lexLt_append_cons (p : List Nat) (c : Nat) (r : List Nat) :
    lexLt p (p ++ c :: r) = true := by
  induction p with
  | nil => simp [lexLt]
  | cons a as ih =>
    rw [List.cons_append, lexLt_cons_same]
    exact ih

theorem lexLt_of_properExt {p q : List Nat} (hpre : p <+: q) (hlen : p.length < q.length) :
    lexLt p q = true := by
  obtain ⟨t, rfl⟩ := hpre
  cases t with
  | nil => simp at hlen
  | cons c r => exact lexLt_append_cons p c r

theorem lexLt_cross {s t : Nat} (hst : s < t) : ∀ (pre u v : List Nat),
    lexLt (pre ++ s :: u) (pre ++ t :: v) = true := by
  intro pre
  induction pre with
  | nil => intro u v; simp [lexLt, hst]
  | cons a as ih =>
    intro u v
    rw [List.cons_append, List.cons_append, lexLt_cons_same]
    exact ih u v

theorem mem_visit {S : List (List Nat)} : ∀ (fuel : Nat) (pre q : List Nat),
    q ∈ visit S fuel pre → pre <+: q ∧ pre.length < q.length := by
  intro fuel
  induction fuel with
  | zero => intro pre q h; simp [visit] at h
  | succ fuel ih =>
    intro pre q h
    simp only [visit, List.mem_flatMap] at h
    obtain ⟨s, _, hq⟩ := h
    rcases List.mem_append.mp hq with h1 | h2
    · have hq2 : q = pre ++ [s] := by
        by_cases hmem : (pre ++ [s]) ∈ S
        · rw [if_pos hmem] at h1; simpa using h1
        · rw [if_neg hmem] at h1; simp at h1
      subst hq2
      exact ⟨List.prefix_append _ _, by simp⟩
    · obtain ⟨hp, hl⟩ := ih (pre ++ [s]) q h2
      refine ⟨(List.prefix_append _ _).trans hp, ?_⟩
      simp only [List.length_append, List.length_cons, List.length_nil] at hl
      omega

theorem childSegs_nodup (S : List (List Nat)) (pre : List Nat) : (childSegs S pre).Nodup :=
  ((List.perm_insertionSort _ _).nodup_iff).mpr (List.nodup_dedup _)

theorem childSegs_sorted (S : List (List Nat)) (pre : List Nat) :
    List.Pairwise (fun a b : Nat => a < b) (childSegs S pre) := by
  have h1 : List.Sorted (fun a b : Nat => a ≤ b) (childSegs S pre) :=
    List.sorted_insertionSort _ _
  have h2 := childSegs_nodup S pre
  exact (List.Pairwise.and h1 h2).imp (fun hab => lt_of_le_of_ne hab.1 hab.2)

theorem mem_childSegs {S : List (List Nat)} {pre q : List Nat}
    (hq : q ∈ S) (hpre : pre <+: q) (hlen : pre.length < q.length) :
    q.getD pre.length 0 ∈ childSegs S pre := by
  rw [childSegs, (List.perm_insertionSort _ _).mem_iff, List.mem_dedup]
  refine List.mem_map_of_mem _ (List.mem_filter.mpr ⟨hq, ?_⟩)
  simp only [Bool.and_eq_true, List.isPrefixOf_iff_prefix, decide_eq_true_eq]
  exact ⟨hpre, hlen⟩

theorem mem_block {S : List (List Nat)} {fuel : Nat} {pre : List Nat} {s : Nat}
    {q : List Nat}
    (h : q ∈ (if (pre ++ [s]) ∈ S then [pre ++ [s]] else []) ++ visit S fuel (pre ++ [s])) :
    (pre ++ [s]) <+: q := by
  rcases List.mem_append.mp h with h1 | h2
  · have hq2 : q = pre ++ [s] := by
      by_cases hmem : (pre ++ [s]) ∈ S
      · rw [if_pos hmem] at h1; simpa using h1
      · rw [if_neg hmem] at h1; simp at h1
    exact hq2 ▸ List.prefix_rfl
  · exact (mem_visit fuel (pre ++ [s]) q h2).1

theorem visit_sorted (S : List (List Nat)) : ∀ (fuel : Nat) (pre : List Nat),
    List.Pairwise LexLtP (visit S fuel pre) := by
  intro fuel
  induction fuel with
  | zero => intro pre; simp [visit]
  | succ fuel ih =>
    intro pre
    simp only [visit]
    have hcs := childSegs_sorted S pre
    revert hcs
    generalize childSegs S pre = segs
    induction segs with
    | nil => intro _; simp
    | cons s rest ihs =>
      intro hcs
      rw [List.flatMap_cons, List.pairwise_append]
      refine ⟨?_, ihs (List.pairwise_cons.mp hcs).2, ?_⟩
      · rw [List.pairwise_append]
        refine ⟨by split <;> simp, ih (pre ++ [s]), ?_⟩
        intro a ha b hb
        have ha2 : a = pre ++ [s] := by
          by_cases hmem : (pre ++ [s]) ∈ S
          · rw [if_pos hmem] at ha; simpa using ha
          · rw [if_neg hmem] at ha; simp at ha
        subst ha2
        have hm := mem_visit fuel (pre ++ [s]) b hb
        exact lexLt_of_properExt hm.1 hm.2
      · intro a ha b hb
        obtain ⟨t, htr, hbt⟩ := List.mem_flatMap.mp hb
        have hst : s < t := (List.pairwise_cons.mp hcs).1 t htr
        obtain ⟨u, rfl⟩ := mem_block ha
        obtain ⟨v, rfl⟩ := mem_block hbt
        show lexLt (pre ++ [s] ++ u) (pre ++ [t] ++ v) = true
        rw [List.append_assoc, List.append_assoc, List.singleton_append,
          List.singleton_append]
        exact lexLt_cross hst pre u v

/-! ### Permutation machinery for the preorder traversal -/

theorem flatMap_congr {α β : Type} {l : List α} {f g : α → List β}
    (h : ∀ a ∈ l, f a = g a) : l.flatMap f = l.flatMap g := by
  induction l with
  | nil => rfl
  | cons a l ih =>
    rw [List.flatMap_cons, List.flatMap_cons, h a (by simp),
      ih (fun x hx => h x (List.mem_cons_of_mem _ hx))]

theorem flatMap_perm {α β : Type} {l : List α} {f g : α → List β}
    (h : ∀ a ∈ l, List.Perm (f a) (g a)) : List.Perm (l.flatMap f) (l.flatMap g) := by
  induction l with
  | nil => simp
  | cons a l ih =>
    rw [List.flatMap_cons, List.flatMap_cons]
    exact (h a (by simp)).append (ih fun x hx => h x (List.mem_cons_of_mem _ hx))

theorem filter_or_disjoint {α : Type} (p q : α → Bool) (l : List α)
    (hdisj : ∀ a ∈ l, ¬(p a = true ∧ q a = true)) :
    List.Perm (l.filter (fun a => p a || q a)) (l.filter p ++ l.filter q) := by
  induction l with
  | nil => simp
  | cons a l ih =>
    have ihl := ih (fun x hx => hdisj x (List.mem_cons_of_mem _ hx))
    rw [List.filter_cons, List.filter_cons, List.filter_cons]
    by_cases hp : p a = true
    · have hq : ¬ q a = true := fun hq => hdisj a (by simp) ⟨hp, hq⟩
      rw [if_pos (by simp [hp]), if_pos hp, if_neg hq]
      exact ihl.cons a
    · by_cases hq : q a = true
      · rw [if_pos (by simp [hq]), if_neg hp, if_pos hq]
        exact (ihl.cons a).trans List.perm_middle.symm
      · rw [if_neg (by simp [hp, hq]), if_neg hp, if_neg hq]
        exact ihl

theorem filter_beq_nodup {α : Type} [DecidableEq α] [BEq α] [LawfulBEq α] {l : List α}
    (hnd : l.Nodup) (x : α) :
    l.filter (fun a => a == x) = if x ∈ l then [x] else [] := by
  induction l with
  | nil => simp
  | cons a l ih =>
    obtain ⟨hna, hndl⟩ := List.nodup_cons.mp hnd
    rw [List.filter_cons]
    by_cases hax : a = x
    · subst hax
      rw [if_pos (by simp), if_pos (by simp)]
      have hf : l.filter (fun b => b == a) = [] := by
        rw [List.filter_eq_nil_iff]
        intro b hb
        simp only [beq_iff_eq]
        intro he; subst he; exact hna hb
      rw [hf]
    · rw [if_neg (by simp [hax]), ih hndl]
      by_cases hx : x ∈ l
      · rw [if_pos hx, if_pos (List.mem_cons_of_mem _ hx)]
      · rw [if_neg hx, if_neg (by
          simp only [List.mem_cons]
          rintro (h | h)
          · exact hax h.symm
          · exact hx h)]

theorem perm_flatMap_filter_key {α β : Type} [DecidableEq β] (key : α → β) :
    ∀ (idx : List β) (l : List α), idx.Nodup → (∀ a ∈ l, key a ∈ idx) →
    List.Perm l (idx.flatMap (fun s => l.filter (fun a => key a == s))) := by
  intro idx
  induction idx with
  | nil =>
    intro l _ hall
    cases l with
    | nil => simp
    | cons a l => exact absurd (hall a (by simp)) (by simp)
  | cons s rest ih =>
    intro l hnd hall
    obtain ⟨hns, hndr⟩ := List.nodup_cons.mp hnd
    have hsplit : List.Perm l
        (l.filter (fun a => key a == s) ++ l.filter (fun a => !(key a == s))) :=
      (List.filter_append_perm _ l).symm
    have hrest : ∀ a ∈ l.filter (fun a => !(key a == s)), key a ∈ rest := by
      intro a ha
      have hm := List.mem_filter.mp ha
      have hin := hall a hm.1
      simp only [List.mem_cons] at hin
      rcases hin with h | h
      · exfalso; have := hm.2; simp [h] at this
      · exact h
    have ihr := ih (l.filter (fun a => !(key a == s))) hndr hrest
    have hdf : ∀ t ∈ rest,
        (l.filter (fun a => !(key a == s))).filter (fun a => key a == t) =
          l.filter (fun a => key a == t) := by
      intro t ht
      rw [List.filter_filter]
      apply List.filter_congr
      intro a _
      by_cases hk : key a = t
      · have hts : ¬ t = s := by
          intro hts
          exact hns (hts ▸ ht)
        simp [hk, hts]
      · simp [hk]
    rw [List.flatMap_cons]
    refine hsplit.trans (List.Perm.append_left _ ?_)
    refine ihr.trans ?_
    rw [flatMap_congr hdf]

theorem block_pred_split (pre : List Nat) (s : Nat) (fuel : Nat) (q : List Nat) :
    ((q.getD pre.length 0 == s) &&
      (pre.isPrefixOf q && decide (pre.length < q.length) &&
        decide (q.length ≤ pre.length + (fuel + 1))))
    = ((q == pre ++ [s]) ||
       ((pre ++ [s]).isPrefixOf q && decide ((pre ++ [s]).length < q.length) &&
        decide (q.length ≤ (pre ++ [s]).length + fuel))) := by
  rw [Bool.eq_iff_iff]
  simp only [Bool.and_eq_true, Bool.or_eq_true, beq_iff_eq, decide_eq_true_eq,
    List.isPrefixOf_iff_prefix, List.length_append, List.length_cons, List.length_nil]
  constructor
  · rintro ⟨hkey, ⟨hpre, hlen⟩, hbound⟩
    by_cases hq : q = pre ++ [s]
    · exact Or.inl hq
    · right
      have hpre2 : pre ++ [s] <+: q := by
        rw [← hkey]; exact prefix_getD hpre hlen
      have hlen2 : pre.length + 1 ≤ q.length := by
        have := hpre2.length_le
        simpa using this
      rcases Nat.lt_or_ge (pre.length + 1) q.length with h | h
      · exact ⟨⟨hpre2, by omega⟩, by omega⟩
      · exfalso
        have heq : (pre ++ [s]).length = q.length := by simp; omega
        exact hq (hpre2.eq_of_length heq).symm
  · rintro (hq | ⟨⟨hpre2, hlen2⟩, hbound2⟩)
    · subst hq
      refine ⟨getD_append_cons pre s [], ⟨List.prefix_append _ _, by simp⟩, by simp⟩
    · have hpre : pre <+: q := (List.prefix_append pre [s]).trans hpre2
      have hkey : q.getD pre.length 0 = s := by
        obtain ⟨u, hu⟩ := hpre2
        rw [← hu, show pre ++ [s] ++ u = pre ++ s :: u by simp]
        exact getD_append_cons pre s u
      exact ⟨hkey, ⟨hpre, by omega⟩, by omega⟩

theorem visit_perm {S : List (List Nat)} (hnd : S.Nodup) : ∀ (fuel : Nat) (pre : List Nat),
    List.Perm (visit S fuel pre)
      (S.filter (fun q => pre.isPrefixOf q && decide (pre.length < q.length) &&
        decide (q.length ≤ pre.length + fuel))) := by
  intro fuel
  induction fuel with
  | zero =>
    intro pre
    have hf : S.filter (fun q => pre.isPrefixOf q && decide (pre.length < q.length) &&
        decide (q.length ≤ pre.length + 0)) = [] := by
      rw [List.filter_eq_nil_iff]
      intro q hq
      simp only [Bool.and_eq_true, decide_eq_true_eq, not_and]
      rintro ⟨hpre, hlen⟩
      omega
    rw [hf]
    simp [visit]
  | succ fuel ih =>
    intro pre
    apply List.Perm.symm
    have hkeymem : ∀ q ∈ S.filter (fun q => pre.isPrefixOf q &&
        decide (pre.length < q.length) && decide (q.length ≤ pre.length + (fuel + 1))),
        q.getD pre.length 0 ∈ childSegs S pre := by
      intro q hq
      obtain ⟨hqS, hp⟩ := List.mem_filter.mp hq
      simp only [Bool.and_eq_true, decide_eq_true_eq, List.isPrefixOf_iff_prefix] at hp
      exact mem_childSegs hqS hp.1.1 hp.1.2
    have h1 := perm_flatMap_filter_key (fun q => q.getD pre.length 0) (childSegs S pre)
      (S.filter (fun q => pre.isPrefixOf q && decide (pre.length < q.length) &&
        decide (q.length ≤ pre.length + (fuel + 1)))) (childSegs_nodup S pre) hkeymem
    refine h1.trans ?_
    rw [visit]
    apply flatMap_perm
    intro s hs
    rw [List.filter_filter]
    rw [List.filter_congr (fun q _ => block_pred_split pre s fuel q)]
    refine (filter_or_disjoint _ _ S ?_).trans ?_
    · intro q hq
      rintro ⟨h1q, h2q⟩
      simp only [beq_iff_eq] at h1q
      subst h1q
      simp only [Bool.and_eq_true, decide_eq_true_eq] at h2q
      have := h2q.1.2
      simp at this
    · refine List.Perm.append ?_ (ih (pre ++ [s])).symm
      rw [filter_beq_nodup hnd (pre ++ [s])]

theorem length_le_maxDepth {S : List (List Nat)} {q : List Nat} (h : q ∈ S) :
    q.length ≤ maxDepth S := by
  induction S with
  | nil => simp at h
  | cons a S ih =>
    simp only [maxDepth, List.map_cons, List.foldr_cons] at ih ⊢
    rcases List.mem_cons.mp h with h1 | h1
    · subst h1; exact Nat.le_max_left _ _
    · exact le_trans (ih h1) (Nat.le_max_right _ _)

theorem validMp_ne_nil {q : List Nat} (h : validMp q = true) : q ≠ [] := by
  intro he; subst he; simp [validMp] at h

theorem specPreorder_perm {S : List (List Nat)} (hval : ∀ q ∈ S, validMp q = true)
    (hnd : S.Nodup) : List.Perm (specPreorder S) S := by
  rw [specPreorder]
  refine (visit_perm hnd (maxDepth S) []).trans ?_
  have hself : S.filter (fun q => ([] : List Nat).isPrefixOf q &&
      decide (([] : List Nat).length < q.length) &&
      decide (q.length ≤ ([] : List Nat).length + maxDepth S)) = S := by
    rw [List.filter_eq_self]
    intro q hq
    have hne := validMp_ne_nil (hval q hq)
    have hlen : 0 < q.length := by
      cases q with
      | nil => exact absurd rfl hne
      | cons a t => simp
    simp only [Bool.and_eq_true, decide_eq_true_eq, List.isPrefixOf_iff_prefix,
      List.length_nil]
    exact ⟨⟨by simp, hlen⟩, by simpa using length_le_maxDepth hq⟩
  rw [hself]

theorem specPreorder_eq_insertionSort {S : List (List Nat)}
    (hval : ∀ q ∈ S, validMp q = true) (hnd : S.Nodup) :
    specPreorder S = List.insertionSort LexLeP S := by
  have hs1 : List.Sorted LexLeP (specPreorder S) :=
    (visit_sorted S _ _).imp (fun h => lexLt_le h)
  have hs2 : List.Sorted LexLeP (List.insertionSort LexLeP S) :=
    List.sorted_insertionSort LexLeP S
  exact List.eq_of_perm_of_sorted
    ((specPreorder_perm hval hnd).trans (List.perm_insertionSort LexLeP S).symm) hs1 hs2

theorem map_orderedInsert {α β : Type} (r : α → α → Prop) (rb : β → β → Prop)
    [DecidableRel r] [DecidableRel rb] (f : α → β) (a : α) :
    ∀ (l : List α), (∀ b ∈ l, r a b ↔ rb (f a) (f b)) →
    (List.orderedInsert r a l).map f = List.orderedInsert rb (f a) (l.map f) := by
  intro l
  induction l with
  | nil => intro _; rfl
  | cons b l ih =>
    intro h
    simp only [List.orderedInsert, List.map_cons]
    by_cases hr : r a b
    · rw [if_pos hr, if_pos ((h b (by simp)).mp hr)]
      simp
    · rw [if_neg hr, if_neg (fun hrb => hr ((h b (by simp)).mpr hrb))]
      rw [List.map_cons, ih (fun x hx => h x (List.mem_cons_of_mem _ hx))]

theorem map_insertionSort {α β : Type} (r : α → α → Prop) (rb : β → β → Prop)
    [DecidableRel r] [DecidableRel rb] (f : α → β) :
    ∀ (l : List α), (∀ a ∈ l, ∀ b ∈ l, r a b ↔ rb (f a) (f b)) →
    (List.insertionSort r l).map f = List.insertionSort rb (l.map f) := by
  intro l
  induction l with
  | nil => intro _; rfl
  | cons a l ih =>
    intro h
    simp only [List.insertionSort, List.map_cons]
    have hmem : ∀ b ∈ List.insertionSort r l, r a b ↔ rb (f a) (f b) := by
      intro b hb
      have hbl : b ∈ l := (List.perm_insertionSort r l).mem_iff.mp hb
      exact h a (by simp) b (List.mem_cons_of_mem _ hbl)
    rw [map_orderedInsert r rb f _ _ hmem,
      ih (fun x hx y hy => h x (List.mem_cons_of_mem _ hx) y (List.mem_cons_of_mem _ hy))]

theorem all_sorted_map_mp {o : List Node} (hval : ∀ n ∈ o, validMp n.mp = true) :
    (all_sorted o).map (fun n => n.mp) =
      List.insertionSort LexLeP (o.map (fun n => n.mp)) := by
  rw [all_sorted]
  apply map_insertionSort
  intro a ha b hb
  have hba := validMp_bounds (hval a ha)
  have hbb := validMp_bounds (hval b hb)
  simp only [nodeKeyLe, LexLeP, lexLe]
  rw [lexLt_asStr b.mp a.mp (fun s hs => (hbb s hs).2) (fun s hs => (hba s hs).2)]

theorem ancestorChainAux_iff : ∀ (fuel : Nat) (a b : List Nat), b ≠ [] → b.length ≤ fuel →
    (ancestorChainAux a fuel b = true ↔ (a ≠ [] ∧ a <+: b ∧ a.length < b.length)) := by
  intro fuel
  induction fuel with
  | zero =>
    intro a b hb hlen
    cases b with
    | nil => exact absurd rfl hb
    | cons x t => simp at hlen
  | succ fuel ih =>
    intro a b hb hlen
    by_cases h1 : b.length = 1
    · have hp : mpParent b = none := by rw [mpParent, if_pos h1]
      simp only [ancestorChainAux, hp]
      constructor
      · intro h; exact absurd h (by simp)
      · rintro ⟨ha, hpre, hl⟩
        exfalso
        have hzero : a.length = 0 := by omega
        exact ha (List.length_eq_zero.mp hzero)
    · have hp : mpParent b = some b.dropLast := by rw [mpParent, if_neg h1]
      simp only [ancestorChainAux, hp, Bool.or_eq_true, beq_iff_eq]
      have hblen : 2 ≤ b.length := by
        cases b with
        | nil => exact absurd rfl hb
        | cons x t =>
          simp only [List.length_cons] at h1 ⊢
          omega
      have hdl : b.dropLast.length = b.length - 1 := List.length_dropLast b
      have hdne : b.dropLast ≠ [] := by
        intro he
        rw [he] at hdl
        simp at hdl
        omega
      have hdlen : b.dropLast.length ≤ fuel := by omega
      rw [ih a b.dropLast hdne hdlen]
      constructor
      · rintro (h | ⟨ha, hpre, hl⟩)
        · subst h
          exact ⟨hdne, List.dropLast_prefix b, by omega⟩
        · exact ⟨ha, hpre.trans ( List.dropLast_prefix b), by omega⟩
      · rintro ⟨ha, hpre, hl⟩
        by_cases he : a.length = b.length - 1
        · left
          have h12 : a <+: b.dropLast :=
            List.prefix_of_prefix_length_le hpre ( List.dropLast_prefix b) (by omega)
          exact (h12.eq_of_length (by omega)).symm
        · right
          have h12 : a <+: b.dropLast :=
            List.prefix_of_prefix_length_le hpre ( List.dropLast_prefix b) (by omega)
          exact ⟨ha, h12, by omega⟩

/-- C2: path order equals tree order.  In a valid outline (every node's path
a legal materialized path, all paths distinct), a node is a tree-sense
ancestor of another (reachable by iterating `MaterializedPath.parent`)
exactly when its path is a proper prefix of the other's; and sorting the
nodes by the lexicographic order of their zero-padded path strings, as
`Outline.all_sorted` does, lists the paths exactly in the depth-first
pre-order of the tree. -/
theorem claim_C2_path_order_is_tree_order :
    ∀ (o : List Node), (∀ n ∈ o, validMp n.mp = true) →
      (o.map (fun n => n.mp)).Nodup →
      ((all_sorted o).map (fun n => n.mp) = specPreorder (o.map (fun n => n.mp))) ∧
      (∀ A ∈ o, ∀ B ∈ o,
        (isAncestorOf A.mp B.mp = true ↔ (A.mp <+: B.mp ∧ A.mp.length < B.mp.length))) := by
  intro o hval hnd
  constructor
  · have hv2 : ∀ q ∈ o.map (fun n => n.mp), validMp q = true := by
      intro q hq
      obtain ⟨n, hn, rfl⟩ := List.mem_map.mp hq
      exact hval n hn
    rw [all_sorted_map_mp hval, specPreorder_eq_insertionSort hv2 hnd]
  · intro A hA B hB
    have hBne := validMp_ne_nil (hval B hB)
    have hAne := validMp_ne_nil (hval A hA)
    rw [isAncestorOf, ancestorChainAux_iff B.mp.length A.mp B.mp hBne (le_refl _)]
    constructor
    · rintro ⟨_, h2, h3⟩; exact ⟨h2, h3⟩
    · rintro ⟨h2, h3⟩; exact ⟨hAne, h2, h3⟩

/-- Concrete node for witnesses: root at position 100. -/
def wNodeA : Node :=
  { sqid := [65], mp := [100], title := [97], slug := [97],
    document_types := [[100, 114, 97, 102, 116], [110, 111, 116, 101, 115]] }

/-- Concrete node for witnesses: child of `wNodeA` at position 100. -/
def wNodeB : Node :=
  { sqid := [66], mp := [100, 100], title := [98], slug := [98],
    document_types := [[100, 114, 97, 102, 116], [110, 111, 116, 101, 115]] }

/-- Concrete node for witnesses: root at position 200. -/
def wNodeC : Node :=
  { sqid := [67], mp := [200], title := [99], slug := [99],
    document_types := [[100, 114, 97, 102, 116], [110, 111, 116, 101, 115]] }

/-- Concrete three-node outline used by witnesses. -/
def wOutline : List Node := [wNodeC, wNodeA, wNodeB]

/-- Witness for C2 at the concrete outline `{100, 100-100, 200}`. -/
theorem claim_C2_path_order_is_tree_order_witness :
    ((all_sorted wOutline).map (fun n => n.mp) =
      specPreorder (wOutline.map (fun n => n.mp))) ∧
    (isAncestorOf wNodeA.mp wNodeB.mp = true ↔
      (wNodeA.mp <+: wNodeB.mp ∧ wNodeA.mp.length < wNodeB.mp.length)) :=
  ⟨(claim_C2_path_order_is_tree_order wOutline (by decide) (by decide)).1,
   (claim_C2_path_order_is_tree_order wOutline (by decide) (by decide)).2
     wNodeA (by decide) wNodeB (by decide)⟩

/-! ### Sibling-position arithmetic -/

/-- Modelled from the spec: the step of the three-tier numbering scheme
(section 4.3, thresholds fixed at 9 by section 9): step 100 while fewer
than 9 siblings exist, step 10 while the 100-tier is full (9 to 17
siblings), step 1 once the 10-tier is full. -/
def tierStep (count : Nat) : Nat :=
  if count < 9 then 100 else if count < 18 then 10 else 1

/-- Positions occupied by the siblings under `parent` (`none` is the root
level): the last segment of every node one level below the parent. -/
def siblingPositions (o : List Node) (parent : Option (List Nat)) : List Nat :=
  match parent with
  | none => (o.filter (fun n => n.mp.length == 1)).map (fun n => n.mp.getD 0 0)
  | some p =>
    (o.filter (fun n => p.isPrefixOf n.mp && (n.mp.length == p.length + 1))).map
      (fun n => n.mp.getD p.length 0)

/-- Maximum of a list of naturals (0 when empty). -/
def maxPos (ps : List Nat) : Nat := ps.foldr max 0

/-- Modelled from the spec: the arithmetic core of
`Outline.find_next_sibling_position` (the implementation is absent from the
provided sources; its unit tests and sections 4.3 and 8 fix the behavior).
An empty sibling set yields 100; otherwise the result is `P_max + step`
with the step from the tier rule, failing with the exhausted error
(`none`, the `ValueError` "No space for new sibling") when the result
would exceed 999. -/
def nextSiblingPosition (ps : List Nat) : Option Nat :=
  if ps.isEmpty then some 100
  else
    if maxPos ps + tierStep ps.length ≤ 999 then some (maxPos ps + tierStep ps.length)
    else none

/-- Embedding of `Outline.find_next_sibling_position` at the outline level. -/
def find_next_sibling_position (o : List Node) (parent : Option (List Nat)) : Option Nat :=
  nextSiblingPosition (siblingPositions o parent)

/-- Iterate appends of a new last sibling, stopping at exhaustion. -/
def iterateAppend : Nat → List Nat → List Nat
  | 0, ps => ps
  | n + 1, ps =>
    match nextSiblingPosition ps with
    | none => ps
    | some p => iterateAppend n (ps ++ [p])

theorem le_maxPos {ps : List Nat} {x : Nat} (h : x ∈ ps) : x ≤ maxPos ps := by
  induction ps with
  | nil => simp at h
  | cons a t ih =>
    simp only [maxPos, List.foldr_cons] at ih ⊢
    rcases List.mem_cons.mp h with h1 | h1
    · subst h1; exact Nat.le_max_left _ _
    · exact le_trans (ih h1) (Nat.le_max_right _ _)

theorem tierStep_pos (count : Nat) : 1 ≤ tierStep count := by
  rw [tierStep]
  by_cases h1 : count < 9
  · rw [if_pos h1]; omega
  · rw [if_neg h1]
    by_cases h2 : count < 18
    · rw [if_pos h2]; omega
    · rw [if_neg h2]

/-- C4: sibling-append arithmetic.  On a non-empty sibling set the append
returns `P_max + step` with the step from the tier rule — 100 under 9
siblings, 10 while the 100-tier is full, 1 once the 10-tier is full —
an empty sibling set yields 100, and nine siblings at 100..900 yield 910
(also at the outline level, on the nine-root outline of the unit test). -/
theorem claim_C4_sibling_append_arithmetic :
    (∀ ps : List Nat, ps ≠ [] → maxPos ps + tierStep ps.length ≤ 999 →
      nextSiblingPosition ps = some (maxPos ps + tierStep ps.length)) ∧
    (∀ ps : List Nat, ps.length < 9 → tierStep ps.length = 100) ∧
    (∀ ps : List Nat, 9 ≤ ps.length → ps.length < 18 → tierStep ps.length = 10) ∧
    (∀ ps : List Nat, 18 ≤ ps.length → tierStep ps.length = 1) ∧
    nextSiblingPosition [] = some 100 ∧
    nextSiblingPosition [100, 200, 300, 400, 500, 600, 700, 800, 900] = some 910 := by
  refine ⟨?_, ?_, ?_, ?_, by decide, by decide⟩
  · intro ps hne hle
    rw [nextSiblingPosition, if_neg (by simpa using hne), if_pos hle]
  · intro ps h; rw [tierStep, if_pos h]
  · intro ps h1 h2; rw [tierStep, if_neg (by omega), if_pos h2]
  · intro ps h; rw [tierStep, if_neg (by omega), if_neg (by omega)]

/-- Witness for C4: one sibling at 100 appends to 200 (the unit test's
second-child case), and the tier thresholds at concrete counts. -/
theorem claim_C4_sibling_append_arithmetic_witness :
    nextSiblingPosition [100] = some 200 ∧ tierStep 3 = 100 ∧ tierStep 9 = 10 ∧
    tierStep 20 = 1 :=
  ⟨by
    have h := claim_C4_sibling_append_arithmetic.1 [100] (by decide) (by decide)
    simpa using h,
   claim_C4_sibling_append_arithmetic.2.1 [1, 1, 1] (by decide),
   claim_C4_sibling_append_arithmetic.2.2.1 [1, 1, 1, 1, 1, 1, 1, 1, 1] (by decide) (by decide),
   claim_C4_sibling_append_arithmetic.2.2.2.1
     [1, 1, 1, 1, 1, 1, 1, 1, 1, 1, 1, 1, 1, 1, 1, 1, 1, 1, 1, 1] (by decide)⟩

/-- C5 counterexample: a single sibling at 999 — the exact situation of the
unit test `test_find_next_sibling_position_exhausted` — fails exhausted with
only one sibling, so with fewer than 9 siblings none of the tiers (100, 10,
1) is consumed, refuting "exhaustion only when every tier is consumed". -/
theorem claim_C5_exhaustion_counterexample :
    nextSiblingPosition [999] = none ∧ List.length [999] < 9 := by decide

/-- C5 (amended): consecutive appends are strictly increasing — every
successful append exceeds every occupied position, hence the previously
appended one; starting from the empty sibling set the appends yield
100..900, 910..990, 991..999 and the 28th append fails exhausted, so along
that chain exhaustion indeed occurs only once every tier is consumed; but
an append can fail exhausted without every tier being consumed (single
sibling at 999). -/
theorem claim_C5_append_monotonic_until_exhausted :
    (∀ (ps : List Nat) (p : Nat), nextSiblingPosition ps = some p →
      ∀ x ∈ ps, x < p) ∧
    (∀ (ps : List Nat) (p q : Nat), nextSiblingPosition ps = some p →
      nextSiblingPosition (ps ++ [p]) = some q → p < q) ∧
    (iterateAppend 27 [] =
      [100, 200, 300, 400, 500, 600, 700, 800, 900,
       910, 920, 930, 940, 950, 960, 970, 980, 990,
       991, 992, 993, 994, 995, 996, 997, 998, 999] ∧
     nextSiblingPosition (iterateAppend 27 []) = none) ∧
    nextSiblingPosition [999] = none := by
  have hmono : ∀ (ps : List Nat) (p : Nat), nextSiblingPosition ps = some p →
      ∀ x ∈ ps, x < p := by
    intro ps p h x hx
    rw [nextSiblingPosition] at h
    by_cases he : ps.isEmpty = true
    · rw [List.isEmpty_iff] at he
      subst he
      simp at hx
    · rw [if_neg he] at h
      by_cases hle : maxPos ps + tierStep ps.length ≤ 999
      · rw [if_pos hle] at h
        injection h with h
        subst h
        have h1 := le_maxPos hx
        have h2 := tierStep_pos ps.length
        omega
      · rw [if_neg hle] at h; exact absurd h (by simp)
  refine ⟨hmono, ?_, by decide, by decide⟩
  intro ps p q h1 h2
  exact hmono (ps ++ [p]) q h2 p (by simp)

/-- Witness for C5 (amended): the nine-sibling set of the unit test appends
910, which exceeds every occupied position. -/
theorem claim_C5_append_monotonic_until_exhausted_witness :
    (900 : Nat) < 910 ∧ (100 : Nat) < 910 :=
  ⟨claim_C5_append_monotonic_until_exhausted.1
      [100, 200, 300, 400, 500, 600, 700, 800, 900] 910 (by decide) 900 (by decide),
   claim_C5_append_monotonic_until_exhausted.1
      [100, 200, 300, 400, 500, 600, 700, 800, 900] 910 (by decide) 100 (by decide)⟩

/-! ### Move with cascade -/

/-- Modelled from the spec: `replace_prefix` (section 3): replace the
leading `old`-length segments by `new`; callers only apply it to paths
that begin with `old`. -/
def replacePrefixSegs (oldPre newPre p : List Nat) : List Nat :=
  newPre ++ p.drop oldPre.length

/-- Modelled from the spec: `Outline.move_node` (section 4.4; the
implementation is absent from the provided sources, and its unit tests fix
the behavior).  The move is rejected (`none`) when the id is unknown, the
target equals the source, the target is occupied by another node, or the
target lies inside the moved subtree (cycle); otherwise every node whose
path starts with the old path — the moved node itself included — is
renamed by `replace_prefix`, and nothing else changes. -/
def move_node (o : List Node) (sqid : PyStr) (newMp : List Nat) : Option (List Node) :=
  match o.find? (fun n => n.sqid == sqid) with
  | none => none
  | some nd =>
    if newMp = nd.mp then none
    else if o.any (fun m => m.mp == newMp && !(m.sqid == sqid)) then none
    else if nd.mp.isPrefixOf newMp then none
    else some (o.map (fun m =>
      if nd.mp.isPrefixOf m.mp then { m with mp := replacePrefixSegs nd.mp newMp m.mp }
      else m))

/-- C3: move cascade with frame condition.  For every successful move of
the node with the given id to `newMp`: no node's id or doctype set changes
(the id and doctype-set sequences are untouched), every node whose path
started with the old path — the moved node included — ends with
`replace_prefix(old, new)` of its old path, and every other node's path is
unchanged (the result is exactly the pointwise rename). -/
theorem claim_C3_move_cascade_frame :
    ∀ (o : List Node) (sqid : PyStr) (newMp : List Nat) (o2 : List Node) (nd : Node),
      o.find? (fun n => n.sqid == sqid) = some nd →
      move_node o sqid newMp = some o2 →
      o2.map (fun n => n.sqid) = o.map (fun n => n.sqid) ∧
      o2.map (fun n => n.document_types) = o.map (fun n => n.document_types) ∧
      o2 = o.map (fun m =>
        if nd.mp.isPrefixOf m.mp then { m with mp := replacePrefixSegs nd.mp newMp m.mp }
        else m) := by
  intro o sqid newMp o2 nd hfind hmv
  rw [move_node] at hmv
  simp only [hfind] at hmv
  by_cases h1 : newMp = nd.mp
  · rw [if_pos h1] at hmv; exact absurd hmv (by simp)
  · rw [if_neg h1] at hmv
    by_cases h2 : o.any (fun m => m.mp == newMp && !(m.sqid == sqid)) = true
    · rw [if_pos h2] at hmv; exact absurd hmv (by simp)
    · rw [if_neg h2] at hmv
      by_cases h3 : nd.mp.isPrefixOf newMp = true
      · rw [if_pos h3] at hmv; exact absurd hmv (by simp)
      · rw [if_neg h3] at hmv
        injection hmv with hmv
        subst hmv
        refine ⟨?_, ?_, rfl⟩
        · rw [List.map_map]
          apply List.map_congr_left
          intro m _
          dsimp only [Function.comp]
          cases hm : nd.mp.isPrefixOf m.mp
          · rfl
          · rfl
        · rw [List.map_map]
          apply List.map_congr_left
          intro m _
          dsimp only [Function.comp]
          cases hm : nd.mp.isPrefixOf m.mp
          · rfl
          · rfl

/-- Concrete outline of the unit test `test_move_node_to_new_parent`. -/
def mvN1 : Node :=
  { sqid := [49], mp := [100], title := [97], slug := [97],
    document_types := [[100, 114, 97, 102, 116], [110, 111, 116, 101, 115]] }

/-- Second root of the move-test outline. -/
def mvN2 : Node :=
  { sqid := [50], mp := [200], title := [98], slug := [98],
    document_types := [[100, 114, 97, 102, 116], [110, 111, 116, 101, 115]] }

/-- Child to be moved in the move-test outline. -/
def mvN3 : Node :=
  { sqid := [51], mp := [100, 100], title := [99], slug := [99],
    document_types := [[100, 114, 97, 102, 116], [110, 111, 116, 101, 115]] }

/-- Grandchild cascaded by the move in the move-test outline. -/
def mvN4 : Node :=
  { sqid := [52], mp := [100, 100, 100], title := [100], slug := [100],
    document_types := [[100, 114, 97, 102, 116], [110, 111, 116, 101, 115]] }

/-- The four-node move-test outline. -/
def mvOutline : List Node := [mvN1, mvN2, mvN3, mvN4]

/-- Result of moving node 3 to `200-100`: child and grandchild cascade,
parents untouched. -/
def mvResult : List Node :=
  [mvN1, mvN2, { mvN3 with mp := [200, 100] }, { mvN4 with mp := [200, 100, 100] }]

/-- Witness for C3: the unit-test move of node 3 from `100-100` to
`200-100` cascades the grandchild to `200-100-100` and changes no id,
doctype set, or unrelated path. -/
theorem claim_C3_move_cascade_frame_witness :
    mvResult.map (fun n => n.sqid) = mvOutline.map (fun n => n.sqid) ∧
    mvResult.map (fun n => n.document_types) = mvOutline.map (fun n => n.document_types) ∧
    mvResult = mvOutline.map (fun m =>
      if mvN3.mp.isPrefixOf m.mp
      then { m with mp := replacePrefixSegs mvN3.mp [200, 100] m.mp }
      else m) :=
  claim_C3_move_cascade_frame mvOutline [51] [200, 100] mvResult mvN3
    (by decide) (by decide)

/-! ### Filesystem adapter rename -/

/-- The flat directory as an association list of (path, contents); paths
are opaque names. -/
abbrev FileSys := List (Nat × PyStr)

/-- Whether a path exists in the directory (`anyio.Path.exists`). -/
def fileExistsFS (fs : FileSys) (p : Nat) : Bool := fs.any (fun e => e.1 == p)

/-- The exceptions `FileSystemAdapter.rename_file` raises itself. -/
inductive RenameError where
  | fileNotFound
  | fileExists
deriving Repr, DecidableEq

/-- Embedding of `FileSystemAdapter.rename_file`
(`linemark/adapters/filesystem.py`): raise `FileNotFoundError` when the
source does not exist, then `FileExistsError` when the target already
exists, and only otherwise rename the entry, leaving every other file
untouched. -/
def rename_file (fs : FileSys) (oldPath newPath : Nat) : Except RenameError FileSys :=
  if !(fileExistsFS fs oldPath) then Except.error RenameError.fileNotFound
  else if fileExistsFS fs newPath then Except.error RenameError.fileExists
  else Except.ok (fs.map (fun e => if e.1 == oldPath then (newPath, e.2) else e))

/-- C9: rename never overwrites.  `rename_file` raises `FileNotFoundError`
when the source is missing, raises `FileExistsError` when the source exists
but the target does too, and performs the rename only when the source
exists and the target does not — every entry not named `old` is kept
verbatim, so no existing file is ever silently clobbered. -/
theorem claim_C9_rename_never_overwrites :
    (∀ (fs : FileSys) (oldPath newPath : Nat), fileExistsFS fs oldPath = false →
      rename_file fs oldPath newPath = Except.error RenameError.fileNotFound) ∧
    (∀ (fs : FileSys) (oldPath newPath : Nat), fileExistsFS fs oldPath = true →
      fileExistsFS fs newPath = true →
      rename_file fs oldPath newPath = Except.error RenameError.fileExists) ∧
    (∀ (fs : FileSys) (oldPath newPath : Nat) (fs2 : FileSys),
      rename_file fs oldPath newPath = Except.ok fs2 →
      fileExistsFS fs oldPath = true ∧ fileExistsFS fs newPath = false ∧
      fs2 = fs.map (fun e => if e.1 == oldPath then (newPath, e.2) else e) ∧
      ∀ e ∈ fs, e.1 ≠ oldPath → e ∈ fs2) := by
  refine ⟨?_, ?_, ?_⟩
  · intro fs oldPath newPath h
    rw [rename_file, if_pos (by simp [h])]
  · intro fs oldPath newPath h1 h2
    rw [rename_file, if_neg (by simp [h1]), if_pos h2]
  · intro fs oldPath newPath fs2 h
    rw [rename_file] at h
    by_cases h1 : fileExistsFS fs oldPath = true
    · rw [if_neg (by simp [h1])] at h
      by_cases h2 : fileExistsFS fs newPath = true
      · rw [if_pos h2] at h; exact absurd h (by simp)
      · rw [if_neg h2] at h
        injection h with h
        subst h
        refine ⟨h1, by simpa using h2, rfl, ?_⟩
        intro e he hne
        have heq : (if e.1 == oldPath then (newPath, e.2) else e) = e := by
          rw [if_neg (by simpa using hne)]
        exact heq ▸ List.mem_map_of_mem _ he
    · rw [if_pos (by simpa using h1)] at h
      exact absurd h (by simp)

/-- Witness for C9: renaming path 1 to path 3 in a two-file directory moves
the contents and keeps path 2 intact. -/
theorem claim_C9_rename_never_overwrites_witness :
    fileExistsFS [(1, [97]), (2, [98])] 1 = true ∧
    fileExistsFS [(1, [97]), (2, [98])] 3 = false ∧
    [(3, [97]), (2, [98])] =
      List.map (fun e => if e.1 == 1 then (3, e.2) else e) [(1, [97]), (2, [98])] ∧
    ∀ e ∈ [((1 : Nat), ([97] : PyStr)), (2, [98])], e.1 ≠ 1 → e ∈ [(3, [97]), (2, [98])] :=
  claim_C9_rename_never_overwrites.2.2 [(1, [97]), (2, [98])] 1 3 [(3, [97]), (2, [98])]
    (by rfl)

/-! ### CLI exit codes -/

/-- Python exception classes appearing in the CLI dispatch of
`linemark/cli/main.py`.  From `linemark/domain/exceptions.py`:
`LinemarkError` extends `Exception` (not `ValueError`) and
`NodeNotFoundError` extends `LinemarkError`.  `DoctypeNotFoundError` and
`InvalidRegexError` are imported by the CLI but their definitions are not
among the provided sources; modelled from the spec's error taxonomy
(section 7) as domain-error classes under `LinemarkError`, consistent with
the CLI catching them separately from `ValueError` and `OSError`.  The
builtin hierarchy is Python's: `FileNotFoundError`, `FileExistsError` and
`PermissionError` under `OSError`; `UnicodeDecodeError` under
`ValueError`. -/
inductive PyClass where
  | exceptionC
  | valueErrorC
  | unicodeDecodeErrorC
  | osErrorC
  | fileNotFoundErrorC
  | fileExistsErrorC
  | permissionErrorC
  | linemarkErrorC
  | nodeNotFoundErrorC
  | doctypeNotFoundErrorC
  | invalidRegexErrorC
deriving Repr, DecidableEq, Fintype

/-- An exception instance, identified by its most specific class. -/
abbrev PyExc := PyClass

/-- Proper ancestors of each class in the exception hierarchy. -/
def classAncestors : PyClass → List PyClass
  | .exceptionC => []
  | .valueErrorC => [.exceptionC]
  | .unicodeDecodeErrorC => [.valueErrorC, .exceptionC]
  | .osErrorC => [.exceptionC]
  | .fileNotFoundErrorC => [.osErrorC, .exceptionC]
  | .fileExistsErrorC => [.osErrorC, .exceptionC]
  | .permissionErrorC => [.osErrorC, .exceptionC]
  | .linemarkErrorC => [.exceptionC]
  | .nodeNotFoundErrorC => [.linemarkErrorC, .exceptionC]
  | .doctypeNotFoundErrorC => [.linemarkErrorC, .exceptionC]
  | .invalidRegexErrorC => [.linemarkErrorC, .exceptionC]

/-- Python `isinstance` against a class. -/
def isInstance (e : PyExc) (c : PyClass) : Bool := e == c || (classAncestors e).contains c

/-- The CLI commands of `linemark/cli/main.py`. -/
inductive Cmd where
  | compileCmd
  | addCmd
  | listCmd
  | moveCmd
  | renameCmd
  | deleteCmd
  | compactCmd
  | doctorCmd
  | searchCmd
  | typesListCmd
  | typesAddCmd
  | typesRemoveCmd
  | typesReadCmd
  | typesWriteCmd
deriving Repr, DecidableEq, Fintype

/-- The except-clauses of each command in `linemark/cli/main.py`, in
source order: each clause is the tuple of caught classes and the exit code
passed to `sys.exit`. -/
def handlers : Cmd → List (List PyClass × Nat)
  | .compileCmd =>
    [([.doctypeNotFoundErrorC], 1), ([.nodeNotFoundErrorC], 1),
     ([.osErrorC, .permissionErrorC], 2)]
  | .addCmd => [([.valueErrorC], 1)]
  | .listCmd => [([.valueErrorC], 1)]
  | .moveCmd => [([.valueErrorC], 1)]
  | .renameCmd => [([.valueErrorC], 1)]
  | .deleteCmd => [([.valueErrorC], 1)]
  | .compactCmd => [([.valueErrorC], 1)]
  | .doctorCmd => [([.valueErrorC], 1)]
  | .searchCmd =>
    [([.invalidRegexErrorC], 1),
     ([.fileNotFoundErrorC, .permissionErrorC, .unicodeDecodeErrorC], 2)]
  | .typesListCmd => [([.valueErrorC], 1)]
  | .typesAddCmd => [([.valueErrorC], 1)]
  | .typesRemoveCmd => [([.valueErrorC], 1)]
  | .typesReadCmd =>
    [([.nodeNotFoundErrorC], 1), ([.doctypeNotFoundErrorC], 1),
     ([.osErrorC, .permissionErrorC, .unicodeDecodeErrorC, .valueErrorC], 2)]
  | .typesWriteCmd =>
    [([.nodeNotFoundErrorC], 1), ([.doctypeNotFoundErrorC], 1),
     ([.osErrorC, .permissionErrorC, .unicodeDecodeErrorC, .valueErrorC], 2)]

/-- Match an exception against except-clauses in order. -/
def dispatch (hs : List (List PyClass × Nat)) (e : PyExc) : Option Nat :=
  match hs with
  | [] => none
  | (cls, code) :: rest =>
    if cls.any (fun c => isInstance e c) then some code else dispatch rest e

/-- Exit code a command assigns: success exits 0; a raised exception is
matched against the command's except-clauses in order; an unmatched
exception propagates uncaught, and the CLI layer assigns no exit code
(`none`). -/
def cliExitCode (cmd : Cmd) (outcome : Option PyExc) : Option Nat :=
  match outcome with
  | none => some 0
  | some e => dispatch (handlers cmd) e

/-- C8 counterexample: the `add` command catches only `ValueError`, so an
`OSError` (a filesystem/OS error) is not mapped to exit code 2 — it
propagates uncaught out of the command. -/
theorem claim_C8_exit_code_counterexample :
    cliExitCode Cmd.addCmd (some PyClass.osErrorC) = none ∧
    cliExitCode Cmd.addCmd (some PyClass.osErrorC) ≠ some 2 := by decide

/-- C8 (amended): every command exits 0 on success and exits 1 on the
domain errors its handlers catch; but only `compile`, `types read` and
`types write` map every `OSError`-kind failure to exit code 2; `search`
maps `FileNotFoundError`, `PermissionError` and `UnicodeDecodeError` to 2
while a bare `OSError` escapes uncaught; and the remaining commands (add,
list, move, rename, delete, compact, doctor, types list/add/remove) catch
only `ValueError`, so filesystem/OS errors propagate uncaught with no exit
code assigned by the CLI layer. -/
theorem claim_C8_exit_codes :
    (∀ cmd : Cmd, cliExitCode cmd none = some 0) ∧
    (∀ e : PyExc, isInstance e PyClass.osErrorC = true →
      cliExitCode Cmd.compileCmd (some e) = some 2 ∧
      cliExitCode Cmd.typesReadCmd (some e) = some 2 ∧
      cliExitCode Cmd.typesWriteCmd (some e) = some 2) ∧
    (cliExitCode Cmd.searchCmd (some PyClass.fileNotFoundErrorC) = some 2 ∧
     cliExitCode Cmd.searchCmd (some PyClass.permissionErrorC) = some 2 ∧
     cliExitCode Cmd.searchCmd (some PyClass.unicodeDecodeErrorC) = some 2 ∧
     cliExitCode Cmd.searchCmd (some PyClass.osErrorC) = none) ∧
    (∀ cmd ∈ [Cmd.addCmd, Cmd.listCmd, Cmd.moveCmd, Cmd.renameCmd, Cmd.deleteCmd,
        Cmd.compactCmd, Cmd.doctorCmd, Cmd.typesListCmd, Cmd.typesAddCmd,
        Cmd.typesRemoveCmd],
      (∀ e : PyExc, isInstance e PyClass.osErrorC = true →
        cliExitCode cmd (some e) = none) ∧
      cliExitCode cmd (some PyClass.valueErrorC) = some 1) ∧
    (cliExitCode Cmd.compileCmd (some PyClass.doctypeNotFoundErrorC) = some 1 ∧
     cliExitCode Cmd.compileCmd (some PyClass.nodeNotFoundErrorC) = some 1 ∧
     cliExitCode Cmd.searchCmd (some PyClass.invalidRegexErrorC) = some 1 ∧
     cliExitCode Cmd.typesReadCmd (some PyClass.nodeNotFoundErrorC) = some 1 ∧
     cliExitCode Cmd.typesReadCmd (some PyClass.doctypeNotFoundErrorC) = some 1 ∧
     cliExitCode Cmd.typesWriteCmd (some PyClass.nodeNotFoundErrorC) = some 1 ∧
     cliExitCode Cmd.typesWriteCmd (some PyClass.doctypeNotFoundErrorC) = some 1) := by
  decide

/-- Witness for C8 (amended): a `FileExistsError`, an `OSError` subclass,
exits `compile` with code 2 and escapes `move` uncaught. -/
theorem claim_C8_exit_codes_witness :
    cliExitCode Cmd.compileCmd (some PyClass.fileExistsErrorC) = some 2 ∧
    cliExitCode Cmd.moveCmd (some PyClass.fileExistsErrorC) = none :=
  ⟨(claim_C8_exit_codes.2.1 PyClass.fileExistsErrorC (by decide)).1,
   ((claim_C8_exit_codes.2.2.2.1 Cmd.moveCmd (by decide)).1 PyClass.fileExistsErrorC
     (by decide))⟩

/-! ### Compaction -/

/-- Modelled from the spec: the compaction tier (section 4.7): the largest
step among 100, 10, 1 with `n * step ≤ 999` for `n` siblings. -/
def compactStep (n : Nat) : Nat :=
  if n * 100 ≤ 999 then 100 else if n * 10 ≤ 999 then 10 else 1

/-- Whether a path sits exactly at the compacted level: it extends the
parent prefix by exactly one segment. -/
def atLevel (parent mp : List Nat) : Bool :=
  parent.isPrefixOf mp && (mp.length == parent.length + 1)

/-- Whether a path lies at or below the compacted level: it strictly
extends the parent prefix. -/
def belowLevel (parent mp : List Nat) : Bool :=
  parent.isPrefixOf mp && decide (parent.length < mp.length)

/-- Occupied sibling positions at the compacted level, in outline order. -/
def levelPositions (o : List Node) (parent : List Nat) : List Nat :=
  (o.filter (fun n => atLevel parent n.mp)).map (fun n => n.mp.getD parent.length 0)

/-- Rank of a position among the occupied positions: the number of strictly
smaller occupied positions.  Ranks enumerate the siblings in current
lexicographic order, which at a single level is the numeric order of the
last segments. -/
def rankOf (ps : List Nat) (s : Nat) : Nat := (ps.filter (fun q => decide (q < s))).length

/-- New position compaction assigns to the sibling occupying `s`:
`(rank + 1) * step`, the evenly-spaced sequence `step, 2*step, ...`. -/
def compactPos (ps : List Nat) (s : Nat) : Nat := (rankOf ps s + 1) * compactStep ps.length

/-- Modelled from the spec: the per-node renaming of `compact`
(section 4.7; the implementation, `CompactOutlineUseCase`, is absent from
the provided sources).  Siblings at the chosen level receive the evenly
spaced positions in current lexicographic order, and each reassignment
cascades into the sibling's descendants via `replace_prefix` exactly as a
move; a node below the level whose level segment is not an occupied
sibling position lies under no renamed sibling and stays untouched. -/
def compactRename (o : List Node) (parent : List Nat) (nd : Node) : Node :=
  let ps := levelPositions o parent
  if belowLevel parent nd.mp && ps.contains (nd.mp.getD parent.length 0) then
    { nd with mp := parent ++ compactPos ps (nd.mp.getD parent.length 0) ::
        nd.mp.drop (parent.length + 1) }
  else nd

/-- Modelled from the spec: `compact` of the level directly below `parent`
(the root level when `parent = []`). -/
def compact (o : List Node) (parent : List Nat) : List Node :=
  o.map (compactRename o parent)

theorem compactStep_pos (n : Nat) : 1 ≤ compactStep n := by
  rw [compactStep]
  by_cases h1 : n * 100 ≤ 999
  · rw [if_pos h1]; omega
  · rw [if_neg h1]
    by_cases h2 : n * 10 ≤ 999
    · rw [if_pos h2]; omega
    · rw [if_neg h2]

theorem rankOf_mono (ps : List Nat) (s t : Nat) (hst : s ≤ t) :
    rankOf ps s ≤ rankOf ps t := by
  induction ps with
  | nil => simp [rankOf]
  | cons a rest ih =>
    simp only [rankOf, List.filter_cons] at ih ⊢
    by_cases ha : a < s
    · rw [if_pos (by simpa using ha), if_pos (by simp; omega)]
      simpa using ih
    · rw [if_neg (by simpa using ha)]
      by_cases ha2 : a < t
      · rw [if_pos (by simpa using ha2)]
        simp only [List.length_cons]
        omega
      · rw [if_neg (by simpa using ha2)]
        exact ih

theorem rankOf_lt (ps : List Nat) (s t : Nat) (hs : s ∈ ps) (hst : s < t) :
    rankOf ps s < rankOf ps t := by
  induction ps with
  | nil => simp at hs
  | cons a rest ih =>
    simp only [rankOf, List.filter_cons] at ih ⊢
    rcases List.mem_cons.mp hs with h1 | h1
    · subst h1
      rw [if_neg (by simp), if_pos (by simpa using hst)]
      have hmono : rankOf rest s ≤ rankOf rest t := rankOf_mono rest s t (by omega)
      simp only [rankOf] at hmono
      simp only [List.length_cons]
      omega
    · by_cases ha : a < s
      · rw [if_pos (by simpa using ha), if_pos (by simp; omega)]
        simpa using ih h1
      · rw [if_neg (by simpa using ha)]
        by_cases ha2 : a < t
        · rw [if_pos (by simpa using ha2)]
          have := ih h1
          simp only [List.length_cons]
          omega
        · rw [if_neg (by simpa using ha2)]
          exact ih h1

theorem compactPos_lt_iff (ps : List Nat) (s t : Nat) (hs : s ∈ ps) (ht : t ∈ ps) :
    compactPos ps t < compactPos ps s ↔ t < s := by
  have hstep := compactStep_pos ps.length
  constructor
  · intro h
    by_contra hc
    push_neg at hc
    have hr : rankOf ps s ≤ rankOf ps t := rankOf_mono ps s t hc
    rw [compactPos, compactPos] at h
    have : (rankOf ps s + 1) * compactStep ps.length ≤
        (rankOf ps t + 1) * compactStep ps.length :=
      Nat.mul_le_mul_right _ (by omega)
    omega
  · intro h
    have hr := rankOf_lt ps t s ht h
    rw [compactPos, compactPos]
    exact Nat.mul_lt_mul_of_lt_of_le (by omega) (le_refl _) (by omega)

theorem compactPos_inj (ps : List Nat) (s t : Nat) (hs : s ∈ ps) (ht : t ∈ ps)
    (h : compactPos ps s = compactPos ps t) : s = t := by
  rcases Nat.lt_trichotomy s t with hc | hc | hc
  · have := (compactPos_lt_iff ps t s ht hs).mpr hc; omega
  · exact hc
  · have := (compactPos_lt_iff ps s t hs ht).mpr hc; omega

theorem rankOf_map {ps : List Nat} {s : Nat} (hs : s ∈ ps) :
    rankOf (ps.map (compactPos ps)) (compactPos ps s) = rankOf ps s := by
  rw [rankOf, List.filter_map, List.length_map, rankOf]
  congr 1
  apply List.filter_congr
  intro q hq
  simp only [Function.comp_apply, decide_eq_decide]
  exact compactPos_lt_iff ps s q hs hq

theorem drop_append_cons (pre : List Nat) (s : Nat) (u : List Nat) :
    (pre ++ s :: u).drop (pre.length + 1) = u := by
  rw [show pre ++ s :: u = (pre ++ [s]) ++ u by simp,
    show pre.length + 1 = (pre ++ [s]).length by simp, List.drop_left]

theorem belowLevel_iff {parent mp : List Nat} :
    belowLevel parent mp = true ↔ (parent <+: mp ∧ parent.length < mp.length) := by
  simp [belowLevel, List.isPrefixOf_iff_prefix]

theorem atLevel_iff {parent mp : List Nat} :
    atLevel parent mp = true ↔ (parent <+: mp ∧ mp.length = parent.length + 1) := by
  simp [atLevel, List.isPrefixOf_iff_prefix]

theorem belowLevel_decomp {parent mp : List Nat} (hb : belowLevel parent mp = true) :
    mp = parent ++ mp.getD parent.length 0 :: mp.drop (parent.length + 1) :=
  eq_append_getD_drop (belowLevel_iff.mp hb).1 (belowLevel_iff.mp hb).2

theorem node_mp_eta (m : Node) (v : List Nat) (h : v = m.mp) :
    { m with mp := v } = m := by
  cases m
  subst h
  rfl

/-- The path `compactRename` assigns when the rename applies. -/
def compactedMp (o : List Node) (parent : List Nat) (nd : Node) : List Nat :=
  parent ++ compactPos (levelPositions o parent) (nd.mp.getD parent.length 0) ::
    nd.mp.drop (parent.length + 1)

theorem compactRename_pos {o : List Node} {parent : List Nat} {nd : Node}
    (hb : belowLevel parent nd.mp = true)
    (hmem : nd.mp.getD parent.length 0 ∈ levelPositions o parent) :
    compactRename o parent nd = { nd with mp := compactedMp o parent nd } := by
  rw [compactRename]
  simp only [hb, Bool.true_and]
  rw [if_pos (List.elem_eq_true_of_mem hmem)]
  rfl

theorem compactRename_not_below {o : List Node} {parent : List Nat} {nd : Node}
    (hb : ¬ belowLevel parent nd.mp = true) :
    compactRename o parent nd = nd := by
  rw [compactRename]
  simp only [Bool.not_eq_true] at hb
  simp [hb]

theorem compactRename_no_sib {o : List Node} {parent : List Nat} {nd : Node}
    (hmem : nd.mp.getD parent.length 0 ∉ levelPositions o parent) :
    compactRename o parent nd = nd := by
  rw [compactRename]
  rw [if_neg]
  intro h
  rw [Bool.and_eq_true] at h
  exact hmem (List.mem_of_elem_eq_true h.2)

theorem compactRename_sqid (o : List Node) (parent : List Nat) (nd : Node) :
    (compactRename o parent nd).sqid = nd.sqid := by
  rw [compactRename]
  split <;> rfl

theorem compactRename_mp_length (o : List Node) (parent : List Nat) (nd : Node) :
    (compactRename o parent nd).mp.length = nd.mp.length := by
  rw [compactRename]
  split
  · next h =>
    have hb : belowLevel parent nd.mp = true := by
      cases hx : belowLevel parent nd.mp
      · rw [hx] at h; simp at h
      · rfl
    obtain ⟨-, hlen⟩ := belowLevel_iff.mp hb
    simp only [List.length_append, List.length_cons, List.length_drop]
    omega
  · rfl

theorem compactRename_status (o : List Node) (parent : List Nat) (nd : Node) :
    atLevel parent (compactRename o parent nd).mp = atLevel parent nd.mp := by
  rw [compactRename]
  split
  · next h =>
    have hb : belowLevel parent nd.mp = true := by
      cases hx : belowLevel parent nd.mp
      · rw [hx] at h; simp at h
      · rfl
    obtain ⟨hpre, hlen⟩ := belowLevel_iff.mp hb
    rw [Bool.eq_iff_iff, atLevel_iff, atLevel_iff]
    constructor
    · rintro ⟨-, hl⟩
      refine ⟨hpre, ?_⟩
      simp only [List.length_append, List.length_cons, List.length_drop] at hl ⊢
      omega
    · rintro ⟨-, hl⟩
      refine ⟨List.prefix_append _ _, ?_⟩
      simp only [List.length_append, List.length_cons, List.length_drop]
      omega
  · rfl

theorem mem_levelPositions {o : List Node} {parent : List Nat} {nd : Node}
    (hnd : nd ∈ o) (ha : atLevel parent nd.mp = true) :
    nd.mp.getD parent.length 0 ∈ levelPositions o parent := by
  rw [levelPositions]
  exact List.mem_map_of_mem _ (List.mem_filter.mpr ⟨hnd, ha⟩)

theorem atLevel_below {parent mp : List Nat} (ha : atLevel parent mp = true) :
    belowLevel parent mp = true := by
  obtain ⟨hpre, hlen⟩ := atLevel_iff.mp ha
  exact belowLevel_iff.mpr ⟨hpre, by omega⟩

theorem levelPositions_compact (o : List Node) (parent : List Nat) :
    levelPositions (compact o parent) parent =
      (levelPositions o parent).map (compactPos (levelPositions o parent)) := by
  nth_rewrite 3 [levelPositions]
  nth_rewrite 1 [levelPositions]
  rw [compact, List.filter_map, List.map_map, List.map_map]
  have hfc : o.filter ((fun n => atLevel parent n.mp) ∘ compactRename o parent) =
      o.filter (fun n => atLevel parent n.mp) := by
    apply List.filter_congr
    intro nd _
    simp only [Function.comp_apply]
    rw [compactRename_status]
  rw [hfc]
  apply List.map_congr_left
  intro nd hnd
  obtain ⟨hmem, ha⟩ := List.mem_filter.mp hnd
  have ha' : atLevel parent nd.mp = true := by simpa using ha
  have hb := atLevel_below ha'
  have hps := mem_levelPositions hmem ha'
  simp only [Function.comp_apply]
  rw [compactRename_pos hb hps]
  exact getD_append_cons parent _ _

theorem compactPos_fixed {ps : List Nat} {s : Nat} (hs : s ∈ ps) :
    compactPos (ps.map (compactPos ps)) (compactPos ps s) = compactPos ps s := by
  rw [compactPos, rankOf_map hs, List.length_map]
  rfl

theorem compactRename_idem (o : List Node) (parent : List Nat) (nd : Node) :
    compactRename (compact o parent) parent (compactRename o parent nd) =
      compactRename o parent nd := by
  by_cases hb : belowLevel parent nd.mp = true
  · by_cases hmem : nd.mp.getD parent.length 0 ∈ levelPositions o parent
    · rw [compactRename_pos hb hmem]
      have hgd : (compactedMp o parent nd).getD parent.length 0 =
          compactPos (levelPositions o parent) (nd.mp.getD parent.length 0) :=
        getD_append_cons parent _ _
      have hb' : belowLevel parent (compactedMp o parent nd) = true := by
        rw [belowLevel_iff]
        refine ⟨ List.prefix_append _ _, ?_⟩
        rw [compactedMp]
        simp only [List.length_append, List.length_cons]
        omega
      have hmem' : (compactedMp o parent nd).getD parent.length 0 ∈
          levelPositions (compact o parent) parent := by
        rw [hgd, levelPositions_compact]
        exact List.mem_map_of_mem _ hmem
      have hb2 : belowLevel parent
          ({ nd with mp := compactedMp o parent nd } : Node).mp = true := hb'
      have hmem2 : ({ nd with mp := compactedMp o parent nd } : Node).mp.getD parent.length 0 ∈
          levelPositions (compact o parent) parent := hmem'
      rw [compactRename_pos hb2 hmem2]
      apply node_mp_eta
      show compactedMp (compact o parent) parent { nd with mp := compactedMp o parent nd } =
        compactedMp o parent nd
      rw [compactedMp]
      have hmp : ({ nd with mp := compactedMp o parent nd } : Node).mp =
          compactedMp o parent nd := rfl
      rw [hmp, hgd, levelPositions_compact, compactPos_fixed hmem]
      have hdrop : (compactedMp o parent nd).drop (parent.length + 1) =
          nd.mp.drop (parent.length + 1) := by
        rw [compactedMp]
        exact drop_append_cons parent _ _
      rw [hdrop, compactedMp]
    · rw [compactRename_no_sib hmem]
      by_cases hmem2 : nd.mp.getD parent.length 0 ∈ levelPositions (compact o parent) parent
      · rw [compactRename_pos hb hmem2]
        rw [levelPositions_compact] at hmem2
        obtain ⟨p, hp, hfp⟩ := List.mem_map.mp hmem2
        have hfix : compactPos (levelPositions (compact o parent) parent)
            (nd.mp.getD parent.length 0) = nd.mp.getD parent.length 0 := by
          rw [levelPositions_compact, ← hfp, compactPos_fixed hp]
        apply node_mp_eta
        show compactedMp (compact o parent) parent nd = nd.mp
        rw [compactedMp, hfix]
        exact (belowLevel_decomp hb).symm
      · rw [compactRename_no_sib hmem2]
  · rw [compactRename_not_below hb, compactRename_not_below hb]

theorem compact_idem (o : List Node) (parent : List Nat) :
    compact (compact o parent) parent = compact o parent := by
  show (o.map (compactRename o parent)).map (compactRename (compact o parent) parent) =
    o.map (compactRename o parent)
  rw [List.map_map]
  apply List.map_congr_left
  intro nd _
  exact compactRename_idem o parent nd

theorem compact_sqids (o : List Node) (parent : List Nat) :
    (compact o parent).map Node.sqid = o.map Node.sqid := by
  rw [compact, List.map_map]
  apply List.map_congr_left
  intro nd _
  exact compactRename_sqid o parent nd

theorem compact_sibling_count (o : List Node) (parent : List Nat) :
    (levelPositions (compact o parent) parent).length =
      (levelPositions o parent).length := by
  rw [levelPositions_compact, List.length_map]

/-- `a` is the parent path of `b`: `b` extends `a` by exactly one segment
(equivalently, `b` is non-empty and dropping its last segment gives `a`). -/
def parentOfP (a b : List Nat) : Prop := ∃ v, b = a ++ [v]

/-- Every node strictly below the compacted level has its level segment
occupied by an actual sibling node at the level: no orphan paths. -/
def noOrphanBelow (o : List Node) (parent : List Nat) : Prop :=
  ∀ nd ∈ o, belowLevel parent nd.mp = true →
    nd.mp.getD parent.length 0 ∈ levelPositions o parent

theorem parentOfP_append_iff (pre : List Nat) (x y : Nat) (u v : List Nat) :
    parentOfP (pre ++ x :: u) (pre ++ y :: v) ↔ (y = x ∧ ∃ w, v = u ++ [w]) := by
  constructor
  · rintro ⟨w, hw⟩
    have hw' : pre ++ y :: v = pre ++ x :: (u ++ [w]) := by
      rw [hw]; simp
    have hc := List.append_cancel_left hw'
    simp only [List.cons.injEq] at hc
    exact ⟨hc.1, w, hc.2⟩
  · rintro ⟨rfl, w, rfl⟩
    exact ⟨w, by simp⟩

theorem parentOfP_map_level (pre : List Nat) (x y fx fy : Nat) (u v : List Nat)
    (hxy : fy = fx ↔ y = x) :
    (parentOfP (pre ++ x :: u) (pre ++ y :: v) ↔
      parentOfP (pre ++ fx :: u) (pre ++ fy :: v)) := by
  rw [parentOfP_append_iff, parentOfP_append_iff]
  exact and_congr_left fun z => hxy.symm

theorem parentOfP_strict_ext {parent x b : List Nat}
    (hpre : parent <+: x) (hlen : parent.length < x.length) (h : parentOfP x b) :
    parent <+: b ∧ parent.length < b.length := by
  obtain ⟨v, rfl⟩ := h
  refine ⟨hpre.trans (List.prefix_append _ _), ?_⟩
  simp only [List.length_append, List.length_cons]
  omega

theorem parentOfP_from_above {parent a : List Nat} {s : Nat} {u : List Nat}
    (hna : ¬ (parent <+: a ∧ parent.length < a.length)) :
    (parentOfP a (parent ++ s :: u) ↔ (u = [] ∧ a = parent)) := by
  constructor
  · rintro ⟨v, hv⟩
    have hd : a = (parent ++ s :: u).dropLast := by
      rw [hv, List.dropLast_concat]
    cases u with
    | nil =>
      refine ⟨rfl, ?_⟩
      rw [hd]
      simp
    | cons c r =>
      exfalso
      apply hna
      have hrw : (parent ++ s :: c :: r).dropLast = parent ++ (s :: c :: r).dropLast :=
        List.dropLast_append_of_ne_nil parent (by simp)
      rw [hd, hrw]
      constructor
      · exact List.prefix_append _ _
      · simp only [List.length_append, List.dropLast_cons_of_ne_nil, List.length_cons,
          List.length_dropLast]
        omega
  · rintro ⟨rfl, rfl⟩
    exact ⟨s, by simp⟩

theorem compact_parentOf {o : List Node} {parent : List Nat}
    (hno : noOrphanBelow o parent) {a b : Node} (ha : a ∈ o) (hb : b ∈ o) :
    (parentOfP a.mp b.mp ↔
      parentOfP (compactRename o parent a).mp (compactRename o parent b).mp) := by
  by_cases hba : belowLevel parent a.mp = true
  · have hsa := hno a ha hba
    rw [compactRename_pos hba hsa]
    by_cases hbb : belowLevel parent b.mp = true
    · have hsb := hno b hb hbb
      rw [compactRename_pos hbb hsb]
      have hda := belowLevel_decomp hba
      have hdb := belowLevel_decomp hbb
      show parentOfP a.mp b.mp ↔
        parentOfP (compactedMp o parent a) (compactedMp o parent b)
      rw [compactedMp, compactedMp]
      conv_lhs => rw [hda, hdb]
      have hiff : compactPos (levelPositions o parent) (b.mp.getD parent.length 0) =
          compactPos (levelPositions o parent) (a.mp.getD parent.length 0) ↔
          b.mp.getD parent.length 0 = a.mp.getD parent.length 0 := by
        constructor
        · intro h
          exact compactPos_inj _ _ _ hsb hsa h
        · intro h
          rw [h]
      exact parentOfP_map_level _ _ _ _ _ _ _ hiff
    · rw [compactRename_not_below hbb]
      have hax := belowLevel_iff.mp hba
      constructor
      · intro h
        exfalso
        have hext := parentOfP_strict_ext hax.1 hax.2 h
        exact hbb (belowLevel_iff.mpr hext)
      · intro h
        exfalso
        have h' : parentOfP (compactedMp o parent a) b.mp := h
        have hpre : parent <+: compactedMp o parent a := by
          rw [compactedMp]
          exact List.prefix_append _ _
        have hlen : parent.length < (compactedMp o parent a).length := by
          rw [compactedMp]
          simp only [List.length_append, List.length_cons]
          omega
        have hext := parentOfP_strict_ext hpre hlen h'
        exact hbb (belowLevel_iff.mpr hext)
  · rw [compactRename_not_below hba]
    by_cases hbb : belowLevel parent b.mp = true
    · have hsb := hno b hb hbb
      rw [compactRename_pos hbb hsb]
      have hdb := belowLevel_decomp hbb
      have hna : ¬ (parent <+: a.mp ∧ parent.length < a.mp.length) :=
        fun hc => hba (belowLevel_iff.mpr hc)
      have h1 : parentOfP a.mp b.mp ↔
          (b.mp.drop (parent.length + 1) = [] ∧ a.mp = parent) := by
        conv_lhs => rw [hdb]
        exact parentOfP_from_above hna
      have h2 : parentOfP a.mp (compactedMp o parent b) ↔
          (b.mp.drop (parent.length + 1) = [] ∧ a.mp = parent) := by
        rw [compactedMp]
        exact parentOfP_from_above hna
      rw [h1]
      exact h2.symm
    · rw [compactRename_not_below hbb]

/-- **C6** (amended — compaction idempotence and structure preservation):
for every outline state and chosen level, `compact (compact x) =
compact x`; compaction never changes the number of siblings at the
compacted level nor any node's id; and — for levels whose below-level
nodes all sit under an actual sibling present at the level, i.e. in the
absence of orphan paths through the level — it never changes any
parent-child relationship: two nodes stand in the parent-child path
relation after compaction exactly when they did before.  The no-orphan
guard is necessary: outlines with orphan paths are legal (flagged but
allowed), and on them compaction can create a fresh parent-child pair. -/
theorem claim_C6_compaction_idempotent_preserves_structure
    (o : List Node) (parent : List Nat) :
    compact (compact o parent) parent = compact o parent ∧
    (levelPositions (compact o parent) parent).length =
      (levelPositions o parent).length ∧
    (compact o parent).map Node.sqid = o.map Node.sqid ∧
    (noOrphanBelow o parent → ∀ a ∈ o, ∀ b ∈ o,
      (parentOfP a.mp b.mp ↔
        parentOfP (compactRename o parent a).mp (compactRename o parent b).mp)) :=
  ⟨compact_idem o parent, compact_sibling_count o parent, compact_sqids o parent,
    fun hno a ha b hb => compact_parentOf hno ha hb⟩

/-- Concrete node for the compaction counterexample: root sibling at 300,
the only occupant of the root level. -/
def cxN1 : Node :=
  { sqid := [88], mp := [300], title := [120], slug := [120], document_types := [[100]] }

/-- Concrete node for the compaction counterexample: the orphan path
100-50 — legal state, but no sibling occupies 100 at the root level. -/
def cxN2 : Node :=
  { sqid := [89], mp := [100, 50], title := [121], slug := [121], document_types := [[100]] }

/-- Concrete two-node outline with an orphan path. -/
def cxOutline : List Node := [cxN1, cxN2]

/-- **C6** counterexample to the unguarded original claim: on an outline
holding the sibling 300 and the orphan path 100-50, root compaction
renames 300 to position 100 (one sibling, step 100, rank 0) and leaves
the orphan untouched, so two nodes that stood in no parent-child relation
before stand in one after — compaction does change a parent-child
relationship on a legal outline state. -/
theorem claim_C6_parent_child_counterexample :
    ¬ parentOfP cxN1.mp cxN2.mp ∧
    parentOfP (compactRename cxOutline [] cxN1).mp
      (compactRename cxOutline [] cxN2).mp := by
  constructor
  · rintro ⟨v, hv⟩
    simp [cxN1, cxN2] at hv
  · exact ⟨50, by decide⟩

/-- Concrete node for the compaction witness: root sibling at 100. -/
def cpN1 : Node :=
  { sqid := [81], mp := [100], title := [113], slug := [113], document_types := [[100]] }

/-- Concrete node for the compaction witness: child of `cpN1` at 300. -/
def cpN2 : Node :=
  { sqid := [82], mp := [100, 300], title := [114], slug := [114], document_types := [[100]] }

/-- Concrete node for the compaction witness: root sibling at 300. -/
def cpN3 : Node :=
  { sqid := [83], mp := [300], title := [115], slug := [115], document_types := [[100]] }

/-- Concrete node for the compaction witness: child of `cpN3` at 100. -/
def cpN4 : Node :=
  { sqid := [84], mp := [300, 100], title := [116], slug := [116], document_types := [[100]] }

/-- Concrete four-node outline for the compaction witness. -/
def cpOutline : List Node := [cpN1, cpN2, cpN3, cpN4]

/-- Witness for C6 on a concrete outline: the no-orphan hypothesis holds
for compaction at the root level, and the parent-child relation between
`cpN1` and its child `cpN2` is preserved by the compaction renaming. -/
theorem claim_C6_compaction_idempotent_preserves_structure_witness :
    noOrphanBelow cpOutline [] ∧
    (parentOfP cpN1.mp cpN2.mp ↔
      parentOfP (compactRename cpOutline [] cpN1).mp
        (compactRename cpOutline [] cpN2).mp) :=
  ⟨by
    show ∀ nd ∈ cpOutline, belowLevel [] nd.mp = true →
      nd.mp.getD 0 0 ∈ levelPositions cpOutline []
    decide,
    (claim_C6_compaction_idempotent_preserves_structure cpOutline []).2.2.2
      (by
        show ∀ nd ∈ cpOutline, belowLevel [] nd.mp = true →
          nd.mp.getD 0 0 ∈ levelPositions cpOutline []
        decide)
      cpN1 (by decide) cpN2 (by decide)⟩

end Linemark
